import Mathlib

/-!
Verification of the auditr reconciliation engine: a shallow embedding of the
Entry data model (src/entry.rs), the sorted-merge diff iterator (src/diff.rs),
the Stats aggregator with move detection (src/stats.rs), the snapshot store
(src/index.rs), the directory scanner's sorting step (src/analyze.rs) and the
audit workflow (src/lib.rs), together with theorems settling the spec claims.

Machine integers (u64, u128) are modelled as Nat with explicit bounds where
the code can overflow; Rust Strings and PathBufs are modelled as Lean Strings
(paths are compared bytewise in the code, string equality here); the external
Unicode NFC normalization (the unicode_normalization crate) is threaded as an
explicit parameter nfc wherever the code normalizes a path.
-/

/-- Kernel-computable decidability of the strict order on String, through
the character list; propositionally identical to the library instance. -/
instance (priority := 1100) decLtString : DecidableRel (fun a b : String => a < b) :=
  fun a b => decidable_of_iff (a.toList < b.toList) String.lt_iff_toList_lt.symm

/-- Kernel-computable decidability of the weak order on String. -/
instance (priority := 1100) decLeString : DecidableRel (fun a b : String => a ≤ b) :=
  fun a b => decidable_of_iff (a.toList ≤ b.toList) String.le_iff_toList_le.symm

/-- Entry (src/entry.rs): identity record of one file. norm_path is the
NFC-normalized path string set at construction; Ord/Eq on Entry compare only
norm_path. -/
structure Entry where
  path : String
  norm_path : String
  hash : String
  len : Nat
  modified : Nat
deriving DecidableEq, Repr

/-- compare_meta (src/entry.rs): length and modification time agree. -/
def Entry.compare_meta (e1 e2 : Entry) : Bool :=
  e1.len == e2.len && e1.modified == e2.modified

/-- compare_hash (src/entry.rs): content hashes agree. -/
def Entry.compare_hash (e1 e2 : Entry) : Bool :=
  e1.hash == e2.hash

/-- compare_hash_and_mtime (src/entry.rs): modification time and hash agree. -/
def Entry.compare_hash_and_mtime (e1 e2 : Entry) : Bool :=
  e1.modified == e2.modified && e1.hash == e2.hash

/-- Event (src/diff.rs): classification of one key emitted by the merge. -/
inductive Event (T : Type) where
  | ADDED (new : T)
  | REMOVED (old : T)
  | UPDATED (old new : T)
  | UNCHANGED (old new : T)
deriving DecidableEq, Repr

/-- diff_iter (src/diff.rs): the sorted zipper merge, fully consumed into a
list. The Rust iterator compares items with T::Ord; Entry's Ord compares
norm_path, so the comparison is modelled through an explicit key function
into a linear order. -/
def diff_iter {T K : Type} [LinearOrder K] (key : T → K) (equal : T → T → Bool) :
    List T → List T → List (Event T)
  | old :: olds, new :: news =>
    if key old = key new then
      (if equal old new then Event.UNCHANGED old new else Event.UPDATED old new) ::
        diff_iter key equal olds news
    else if key old < key new then
      Event.REMOVED old :: diff_iter key equal olds (new :: news)
    else
      Event.ADDED new :: diff_iter key equal (old :: olds) news
  | old :: olds, [] => Event.REMOVED old :: diff_iter key equal olds []
  | [], new :: news => Event.ADDED new :: diff_iter key equal [] news
  | [], [] => []
termination_by olds news => olds.length + news.length
decreasing_by all_goals simp_wf <;> omega

/-- Key of the entry an event reports on (for UPDATED and UNCHANGED the old
and new keys coincide). -/
def eventKey {T K : Type} (key : T → K) : Event T → K
  | .ADDED n => key n
  | .REMOVED o => key o
  | .UPDATED _ n => key n
  | .UNCHANGED _ n => key n

example : diff_iter (id : Nat → Nat) (fun _ _ => true) [1, 2] [2, 3] =
    [Event.REMOVED 1, Event.UNCHANGED 2 2, Event.ADDED 3] := by
  simp [diff_iter]

/-- Correct classification of a single event relative to the two inputs:
an added entry comes from news and its key is absent from olds, a removed
entry comes from olds and its key is absent from news, and an updated or
unchanged pair joins an old and a new entry of equal key according to the
equality predicate. -/
def eventOk {T K : Type} (key : T → K) (equal : T → T → Bool)
    (olds news : List T) : Event T → Prop
  | .ADDED n => n ∈ news ∧ key n ∉ olds.map key
  | .REMOVED o => o ∈ olds ∧ key o ∉ news.map key
  | .UPDATED o n => o ∈ olds ∧ n ∈ news ∧ key o = key n ∧ equal o n = false
  | .UNCHANGED o n => o ∈ olds ∧ n ∈ news ∧ key o = key n ∧ equal o n = true

theorem eventKey_if {T K : Type} (key : T → K) (c : Prop) [Decidable c] (o n : T) :
    eventKey key (if c then Event.UNCHANGED o n else Event.UPDATED o n) = key n := by
  split <;> rfl

theorem diff_iter_keys_iff {T K : Type} [LinearOrder K] (key : T → K)
    (equal : T → T → Bool) :
    ∀ (olds news : List T) (k : K),
      k ∈ (diff_iter key equal olds news).map (eventKey key) ↔
        k ∈ olds.map key ∨ k ∈ news.map key := by
  intro olds news
  induction olds, news using diff_iter.induct key equal with
  | case1 o os n ns heq ih =>
    intro k
    rw [diff_iter, if_pos heq]
    simp only [List.map_cons, eventKey_if, List.mem_cons, ih k]
    rw [heq]
    tauto
  | case2 o os n ns heq hlt ih =>
    intro k
    rw [diff_iter, if_neg heq, if_pos hlt]
    simp only [List.map_cons, eventKey, List.mem_cons, ih k]
    tauto
  | case3 o os n ns heq hlt ih =>
    intro k
    rw [diff_iter, if_neg heq, if_neg hlt]
    simp only [List.map_cons, eventKey, List.mem_cons, ih k]
    tauto
  | case4 o os ih =>
    intro k
    rw [diff_iter]
    simp only [List.map_cons, List.map_nil, eventKey, List.mem_cons, ih k]
    tauto
  | case5 n ns ih =>
    intro k
    rw [diff_iter]
    simp only [List.map_cons, List.map_nil, eventKey, List.mem_cons, ih k]
    tauto
  | case6 =>
    intro k
    rw [diff_iter]
    simp

theorem diff_iter_eventOk {T K : Type} [LinearOrder K] (key : T → K)
    (equal : T → T → Bool) :
    ∀ (olds news : List T),
      (olds.map key).Pairwise (· < ·) → (news.map key).Pairwise (· < ·) →
      ∀ ev ∈ diff_iter key equal olds news, eventOk key equal olds news ev := by
  intro olds news
  induction olds, news using diff_iter.induct key equal with
  | case1 o os n ns heq ih =>
    intro ho hn ev hev
    rw [List.map_cons, List.pairwise_cons] at ho hn
    rw [diff_iter, if_pos heq] at hev
    rcases List.mem_cons.mp hev with rfl | hev'
    · by_cases hq : equal o n
      · rw [if_pos hq]
        exact ⟨List.mem_cons_self _ _, List.mem_cons_self _ _, heq, hq⟩
      · rw [if_neg hq]
        exact ⟨List.mem_cons_self _ _, List.mem_cons_self _ _, heq,
          Bool.eq_false_iff.mpr hq⟩
    · have hok := ih ho.2 hn.2 ev hev'
      cases ev with
      | ADDED n' =>
        refine ⟨List.mem_cons_of_mem _ hok.1, ?_⟩
        rw [List.map_cons, List.mem_cons]
        rintro (hko | hks)
        · have : key n < key n' := hn.1 _ (List.mem_map_of_mem _ hok.1)
          rw [hko, heq] at this
          exact lt_irrefl _ this
        · exact hok.2 hks
      | REMOVED o' =>
        refine ⟨List.mem_cons_of_mem _ hok.1, ?_⟩
        rw [List.map_cons, List.mem_cons]
        rintro (hkn | hks)
        · have : key o < key o' := ho.1 _ (List.mem_map_of_mem _ hok.1)
          rw [hkn, ← heq] at this
          exact lt_irrefl _ this
        · exact hok.2 hks
      | UPDATED o' n' =>
        exact ⟨List.mem_cons_of_mem _ hok.1, List.mem_cons_of_mem _ hok.2.1,
          hok.2.2.1, hok.2.2.2⟩
      | UNCHANGED o' n' =>
        exact ⟨List.mem_cons_of_mem _ hok.1, List.mem_cons_of_mem _ hok.2.1,
          hok.2.2.1, hok.2.2.2⟩
  | case2 o os n ns heq hlt ih =>
    intro ho hn ev hev
    rw [List.map_cons, List.pairwise_cons] at ho
    rw [diff_iter, if_neg heq, if_pos hlt] at hev
    rcases List.mem_cons.mp hev with rfl | hev'
    · refine ⟨List.mem_cons_self _ _, ?_⟩
      rw [List.map_cons, List.mem_cons]
      rintro (hkn | hks)
      · exact heq hkn
      · rw [List.map_cons, List.pairwise_cons] at hn
        have hnk := hn.1 _ hks
        exact absurd (lt_trans hlt hnk) (lt_irrefl _)
      -- key o < key n < key o: impossible
    · have hok := ih ho.2 hn ev hev'
      cases ev with
      | ADDED n' =>
        refine ⟨hok.1, ?_⟩
        rw [List.map_cons, List.mem_cons]
        rintro (hko | hks)
        · rcases List.mem_cons.mp hok.1 with rfl | hmem
          · exact heq hko.symm
          · rw [List.map_cons, List.pairwise_cons] at hn
            have : key n < key n' := hn.1 _ (List.mem_map_of_mem _ hmem)
            rw [hko] at this
            exact absurd (lt_trans hlt this) (lt_irrefl _)
        · exact hok.2 hks
      | REMOVED o' =>
        exact ⟨List.mem_cons_of_mem _ hok.1, hok.2⟩
      | UPDATED o' n' =>
        exact ⟨List.mem_cons_of_mem _ hok.1, hok.2.1, hok.2.2.1, hok.2.2.2⟩
      | UNCHANGED o' n' =>
        exact ⟨List.mem_cons_of_mem _ hok.1, hok.2.1, hok.2.2.1, hok.2.2.2⟩
  | case3 o os n ns heq hlt ih =>
    intro ho hn ev hev
    rw [List.map_cons, List.pairwise_cons] at hn
    have hgt : key n < key o := by
      rcases lt_trichotomy (key o) (key n) with h | h | h
      · exact absurd h hlt
      · exact absurd h heq
      · exact h
    rw [diff_iter, if_neg heq, if_neg hlt] at hev
    rcases List.mem_cons.mp hev with rfl | hev'
    · refine ⟨List.mem_cons_self _ _, ?_⟩
      rw [List.map_cons, List.mem_cons]
      rintro (hko | hks)
      · exact heq hko.symm
      · rw [List.map_cons, List.pairwise_cons] at ho
        have hok := ho.1 _ hks
        exact absurd (lt_trans hgt hok) (lt_irrefl _)
    · have hok := ih ho hn.2 ev hev'
      cases ev with
      | ADDED n' =>
        exact ⟨List.mem_cons_of_mem _ hok.1, hok.2⟩
      | REMOVED o' =>
        refine ⟨hok.1, ?_⟩
        rw [List.map_cons, List.mem_cons]
        rintro (hkn | hks)
        · rcases List.mem_cons.mp hok.1 with rfl | hmem
          · exact heq hkn.symm.symm
          · rw [List.map_cons, List.pairwise_cons] at ho
            have : key o < key o' := ho.1 _ (List.mem_map_of_mem _ hmem)
            rw [hkn] at this
            exact absurd (lt_trans hgt this) (lt_irrefl _)
        · exact hok.2 hks
      | UPDATED o' n' =>
        exact ⟨hok.1, List.mem_cons_of_mem _ hok.2.1, hok.2.2.1, hok.2.2.2⟩
      | UNCHANGED o' n' =>
        exact ⟨hok.1, List.mem_cons_of_mem _ hok.2.1, hok.2.2.1, hok.2.2.2⟩
  | case4 o os ih =>
    intro ho _hn ev hev
    rw [List.map_cons, List.pairwise_cons] at ho
    rw [diff_iter] at hev
    rcases List.mem_cons.mp hev with rfl | hev'
    · exact ⟨List.mem_cons_self _ _, by simp⟩
    · have hok := ih ho.2 List.Pairwise.nil ev hev'
      cases ev with
      | ADDED n' => exact absurd hok.1 (List.not_mem_nil _)
      | REMOVED o' => exact ⟨List.mem_cons_of_mem _ hok.1, hok.2⟩
      | UPDATED o' n' => exact absurd hok.2.1 (List.not_mem_nil _)
      | UNCHANGED o' n' => exact absurd hok.2.1 (List.not_mem_nil _)
  | case5 n ns ih =>
    intro _ho hn ev hev
    rw [List.map_cons, List.pairwise_cons] at hn
    rw [diff_iter] at hev
    rcases List.mem_cons.mp hev with rfl | hev'
    · exact ⟨List.mem_cons_self _ _, by simp⟩
    · have hok := ih List.Pairwise.nil hn.2 ev hev'
      cases ev with
      | ADDED n' => exact ⟨List.mem_cons_of_mem _ hok.1, hok.2⟩
      | REMOVED o' => exact absurd hok.1 (List.not_mem_nil _)
      | UPDATED o' n' => exact absurd hok.1 (List.not_mem_nil _)
      | UNCHANGED o' n' => exact absurd hok.1 (List.not_mem_nil _)
  | case6 =>
    intro _ho _hn ev hev
    rw [diff_iter] at hev
    exact absurd hev (List.not_mem_nil _)

theorem diff_iter_sortedKeys {T K : Type} [LinearOrder K] (key : T → K)
    (equal : T → T → Bool) :
    ∀ (olds news : List T),
      (olds.map key).Pairwise (· < ·) → (news.map key).Pairwise (· < ·) →
      ((diff_iter key equal olds news).map (eventKey key)).Pairwise (· < ·) := by
  intro olds news
  induction olds, news using diff_iter.induct key equal with
  | case1 o os n ns heq ih =>
    intro ho hn
    rw [List.map_cons, List.pairwise_cons] at ho hn
    rw [diff_iter, if_pos heq, List.map_cons, List.pairwise_cons]
    refine ⟨?_, ih ho.2 hn.2⟩
    intro k hk
    rw [eventKey_if]
    rcases (diff_iter_keys_iff key equal os ns k).mp hk with h | h
    · rw [← heq]
      exact ho.1 _ h
    · exact hn.1 _ h
  | case2 o os n ns heq hlt ih =>
    intro ho hn
    rw [List.map_cons, List.pairwise_cons] at ho
    rw [diff_iter, if_neg heq, if_pos hlt, List.map_cons, List.pairwise_cons]
    refine ⟨?_, ih ho.2 hn⟩
    intro k hk
    show key o < k
    rcases (diff_iter_keys_iff key equal os (n :: ns) k).mp hk with h | h
    · exact ho.1 _ h
    · rw [List.map_cons, List.mem_cons] at h
      rcases h with rfl | h
      · exact hlt
      · rw [List.map_cons, List.pairwise_cons] at hn
        exact lt_trans hlt (hn.1 _ h)
  | case3 o os n ns heq hlt ih =>
    intro ho hn
    rw [List.map_cons, List.pairwise_cons] at hn
    have hgt : key n < key o := by
      rcases lt_trichotomy (key o) (key n) with h | h | h
      · exact absurd h hlt
      · exact absurd h heq
      · exact h
    rw [diff_iter, if_neg heq, if_neg hlt, List.map_cons, List.pairwise_cons]
    refine ⟨?_, ih ho hn.2⟩
    intro k hk
    show key n < k
    rcases (diff_iter_keys_iff key equal (o :: os) ns k).mp hk with h | h
    · rw [List.map_cons, List.mem_cons] at h
      rcases h with rfl | h
      · exact hgt
      · rw [List.map_cons, List.pairwise_cons] at ho
        exact lt_trans hgt (ho.1 _ h)
    · exact hn.1 _ h
  | case4 o os ih =>
    intro ho _hn
    rw [List.map_cons, List.pairwise_cons] at ho
    rw [diff_iter, List.map_cons, List.pairwise_cons]
    refine ⟨?_, ih ho.2 List.Pairwise.nil⟩
    intro k hk
    show key o < k
    rcases (diff_iter_keys_iff key equal os [] k).mp hk with h | h
    · exact ho.1 _ h
    · simp at h
  | case5 n ns ih =>
    intro _ho hn
    rw [List.map_cons, List.pairwise_cons] at hn
    rw [diff_iter, List.map_cons, List.pairwise_cons]
    refine ⟨?_, ih List.Pairwise.nil hn.2⟩
    intro k hk
    show key n < k
    rcases (diff_iter_keys_iff key equal [] ns k).mp hk with h | h
    · simp at h
    · exact hn.1 _ h
  | case6 =>
    intro _ho _hn
    rw [diff_iter]
    exact List.Pairwise.nil

/-- C1: for every pair of Entry sequences each sorted strictly ascending by
key with unique keys, and every equality predicate, diff_iter produces
exactly one Event per distinct key of the union of the two key sets, in
ascending key order (the output keys are strictly ascending and range over
exactly the union), and each event is classified correctly: a key only in
news yields ADDED of the new entry, a key only in olds yields REMOVED of
the old entry, and a shared key yields UPDATED when the predicate is false
and UNCHANGED when it is true. -/
theorem claim_C1_diff_iter_correct {T K : Type} [LinearOrder K] (key : T → K)
    (equal : T → T → Bool) (olds news : List T)
    (ho : (olds.map key).Pairwise (· < ·))
    (hn : (news.map key).Pairwise (· < ·)) :
    ((diff_iter key equal olds news).map (eventKey key)).Pairwise (· < ·) ∧
    (∀ k : K, k ∈ (diff_iter key equal olds news).map (eventKey key) ↔
      k ∈ olds.map key ∨ k ∈ news.map key) ∧
    (∀ ev ∈ diff_iter key equal olds news, eventOk key equal olds news ev) :=
  ⟨diff_iter_sortedKeys key equal olds news ho hn,
   fun k => diff_iter_keys_iff key equal olds news k,
   diff_iter_eventOk key equal olds news ho hn⟩

/-! Association-list model of std HashMap as used by src/stats.rs: only
lookup, overwriting insert, keyed removal and size are observed. Keys are
kept unique; an insert erases the previous binding of the key, so the last
insert wins, matching HashMap::insert and HashMap::from_iter. -/

/-- HashMap::get, as the first (and, keys being unique, only) binding. -/
def alGet (m : List (String × Entry)) (k : String) : Option Entry :=
  (m.find? (fun p => p.1 == k)).map (fun p => p.2)

/-- Removal of a key's binding (HashMap::remove_entry's effect on the map). -/
def alErase (m : List (String × Entry)) (k : String) : List (String × Entry) :=
  m.filter (fun p => p.1 != k)

/-- HashMap::insert: overwrites any previous binding of the key. -/
def alInsert (m : List (String × Entry)) (k : String) (v : Entry) :
    List (String × Entry) :=
  alErase m k ++ [(k, v)]

/-- Stats (src/stats.rs): the six buckets plus the running total. moved maps
an old path to the added entry now carrying the content. -/
structure Stats where
  added : List Entry
  removed : List Entry
  updated : List Entry
  updated_bitrot : List Entry
  moved : List (String × Entry)
  unchanged : List Entry
  total : Nat
deriving DecidableEq, Repr

/-- Stats::modified (src/stats.rs): any structural change is present. -/
def Stats.modified (s : Stats) : Bool :=
  !s.added.isEmpty || !s.removed.isEmpty || !s.updated.isEmpty ||
    !s.updated_bitrot.isEmpty || !s.moved.isEmpty

/-- The initial accumulator of Stats::from_iter. -/
def emptyStats : Stats := ⟨[], [], [], [], [], [], 0⟩

/-- One step of the event loop in Stats::from_iter (src/stats.rs lines
75-98): ADDED and UNCHANGED and both UPDATED arms increment total, REMOVED
does not; an UPDATED pair with equal modification time and differing hash
goes to updated_bitrot, any other UPDATED pair to updated; the UNCHANGED
arm pushes the old reference. -/
def statsStep (s : Stats) : Event Entry → Stats
  | .ADDED n => { s with added := s.added ++ [n], total := s.total + 1 }
  | .REMOVED o => { s with removed := s.removed ++ [o] }
  | .UPDATED o n =>
    if o.modified == n.modified && !(Entry.compare_hash o n) then
      { s with updated_bitrot := s.updated_bitrot ++ [n], total := s.total + 1 }
    else
      { s with updated := s.updated ++ [n], total := s.total + 1 }
  | .UNCHANGED o _new => { s with unchanged := s.unchanged ++ [o], total := s.total + 1 }

/-- The hash-to-removed-entry map of Stats::compute_moved: collecting
(e.hash, e) pairs into a HashMap, so among removed entries sharing a hash
the later one overwrites the earlier one. -/
def buildRemovedMap (removed : List Entry) : List (String × Entry) :=
  removed.foldl (fun m e => alInsert m e.hash e) []

/-- The loop over added entries in Stats::compute_moved: a hit removes the
binding from the map and yields the pair (matched removed entry's path,
added entry), in order; a miss keeps the added entry. Returns the insert
pairs destined for moved and the kept added entries. -/
def moveLoop : List (String × Entry) → List Entry →
    List (String × Entry) × List Entry
  | _, [] => ([], [])
  | m, a :: as =>
    match alGet m a.hash with
    | some val =>
      let r := moveLoop (alErase m a.hash) as
      ((val.path, a) :: r.1, r.2)
    | none =>
      let r := moveLoop m as
      (r.1, a :: r.2)

/-- Stats::compute_moved (src/stats.rs lines 34-60): match added against
removed by content hash, record matches in moved, keep unmatched added
entries, and rebuild removed as the original removed entries whose path is
not a key of the final moved map. -/
def computeMoved (s : Stats) : Stats :=
  let r := moveLoop (buildRemovedMap s.removed) s.added
  let moved' := r.1.foldl (fun mv p => alInsert mv p.1 p.2) s.moved
  let removed' := s.removed.filter (fun e => (alGet moved' e.path).isNone)
  { s with added := r.2, moved := moved', removed := removed' }

/-- Stats::from_iter (src/stats.rs): consume the event stream once, then
run the move-detection post-pass. -/
def statsFromEvents (events : List (Event Entry)) : Stats :=
  computeMoved (events.foldl statsStep emptyStats)

/-- The entries carried by the ADDED events of a stream, in order. -/
def addedOf (events : List (Event Entry)) : List Entry :=
  events.filterMap (fun ev => match ev with | .ADDED n => some n | _ => none)

/-- The entries carried by the REMOVED events of a stream, in order. -/
def removedOf (events : List (Event Entry)) : List Entry :=
  events.filterMap (fun ev => match ev with | .REMOVED o => some o | _ => none)

theorem computeMoved_updated (s : Stats) : (computeMoved s).updated = s.updated := rfl

theorem computeMoved_updated_bitrot (s : Stats) :
    (computeMoved s).updated_bitrot = s.updated_bitrot := rfl

theorem computeMoved_unchanged (s : Stats) :
    (computeMoved s).unchanged = s.unchanged := rfl

theorem computeMoved_total (s : Stats) : (computeMoved s).total = s.total := rfl

theorem foldl_statsStep_moved (es : List (Event Entry)) :
    ∀ s : Stats, (es.foldl statsStep s).moved = s.moved := by
  induction es with
  | nil => intro s; rfl
  | cons ev es ih =>
    intro s
    rw [List.foldl_cons, ih]
    cases ev with
    | ADDED n => rfl
    | REMOVED o => rfl
    | UPDATED o n =>
      show (if _ then _ else _ : Stats).moved = _
      split <;> rfl
    | UNCHANGED o n => rfl

theorem foldl_statsStep_added (es : List (Event Entry)) :
    ∀ s : Stats, (es.foldl statsStep s).added = s.added ++ addedOf es := by
  induction es with
  | nil => intro s; simp [addedOf]
  | cons ev es ih =>
    intro s
    rw [List.foldl_cons, ih]
    cases ev with
    | ADDED n => simp [addedOf, statsStep]
    | REMOVED o => simp [addedOf, statsStep]
    | UPDATED o n =>
      simp only [addedOf, List.filterMap_cons, statsStep]
      split <;> simp [addedOf]
    | UNCHANGED o n => simp [addedOf, statsStep]

theorem foldl_statsStep_removed (es : List (Event Entry)) :
    ∀ s : Stats, (es.foldl statsStep s).removed = s.removed ++ removedOf es := by
  induction es with
  | nil => intro s; simp [removedOf]
  | cons ev es ih =>
    intro s
    rw [List.foldl_cons, ih]
    cases ev with
    | ADDED n => simp [removedOf, statsStep]
    | REMOVED o => simp [removedOf, statsStep]
    | UPDATED o n =>
      simp only [removedOf, List.filterMap_cons, statsStep]
      split <;> simp [removedOf]
    | UNCHANGED o n => simp [removedOf, statsStep]

theorem alGet_nil (k : String) : alGet [] k = none := rfl

theorem alGet_erase_self (m : List (String × Entry)) (k : String) :
    alGet (alErase m k) k = none := by
  have hall : ∀ p ∈ alErase m k, ¬((fun q : String × Entry => q.1 == k) p = true) := by
    intro p hp
    have := List.of_mem_filter hp
    simpa using this
  unfold alGet
  rw [List.find?_eq_none.mpr hall]
  rfl

theorem alGet_erase_ne (m : List (String × Entry)) (k k' : String) (h : k' ≠ k) :
    alGet (alErase m k) k' = alGet m k' := by
  induction m with
  | nil => rfl
  | cons p ps ih =>
    by_cases hpk : p.1 = k
    · have h1 : alErase (p :: ps) k = alErase ps k := by
        simp [alErase, List.filter_cons, hpk]
      have h2 : alGet (p :: ps) k' = alGet ps k' := by
        have : (p.1 == k') = false := by
          simp [hpk]
          exact fun hk => absurd hk.symm h
        simp [alGet, List.find?_cons, this]
      rw [h1, h2, ih]
    · have h1 : alErase (p :: ps) k = p :: alErase ps k := by
        simp [alErase, List.filter_cons, hpk]
      rw [h1]
      by_cases hpk' : p.1 = k'
      · simp [alGet, List.find?_cons, hpk']
      · have hfalse : (p.1 == k') = false := by simp [hpk']
        simp only [alGet, List.find?_cons, hfalse]
        exact ih

theorem alGet_cons (p : String × Entry) (ps : List (String × Entry)) (k : String) :
    alGet (p :: ps) k = if (p.1 == k) = true then some p.2 else alGet ps k := by
  by_cases h : (p.1 == k) = true
  · rw [if_pos h]
    show Option.map (fun q : String × Entry => q.2)
      (List.find? (fun q : String × Entry => q.1 == k) (p :: ps)) = some p.2
    rw [@List.find?_cons_of_pos _ (fun q : String × Entry => q.1 == k) p ps h]
    rfl
  · rw [if_neg h]
    show Option.map (fun q : String × Entry => q.2)
      (List.find? (fun q : String × Entry => q.1 == k) (p :: ps)) = alGet ps k
    rw [@List.find?_cons_of_neg _ (fun q : String × Entry => q.1 == k) p ps h]
    rfl

theorem alGet_append_some (m1 m2 : List (String × Entry)) (k : String) (v : Entry)
    (h : alGet m1 k = some v) : alGet (m1 ++ m2) k = some v := by
  induction m1 with
  | nil => simp [alGet] at h
  | cons p ps ih =>
    rw [List.cons_append, alGet_cons]
    rw [alGet_cons] at h
    by_cases hpk : (p.1 == k) = true
    · rw [if_pos hpk] at h ⊢
      exact h
    · rw [if_neg hpk] at h ⊢
      exact ih h

theorem alGet_append_none (m1 m2 : List (String × Entry)) (k : String)
    (h : alGet m1 k = none) : alGet (m1 ++ m2) k = alGet m2 k := by
  induction m1 with
  | nil => rfl
  | cons p ps ih =>
    rw [List.cons_append, alGet_cons]
    rw [alGet_cons] at h
    by_cases hpk : (p.1 == k) = true
    · rw [if_pos hpk] at h
      simp at h
    · rw [if_neg hpk] at h ⊢
      exact ih h

theorem alGet_insert_self (m : List (String × Entry)) (k : String) (v : Entry) :
    alGet (alInsert m k v) k = some v := by
  unfold alInsert
  rw [alGet_append_none _ _ _ (alGet_erase_self m k), alGet_cons]
  rw [if_pos (by simp)]

theorem alGet_insert_ne (m : List (String × Entry)) (k k' : String) (v : Entry)
    (h : k' ≠ k) : alGet (alInsert m k v) k' = alGet m k' := by
  unfold alInsert
  have hkk : (k == k') = false := by
    simp only [beq_eq_false_iff_ne, ne_eq]
    exact fun hk => absurd hk.symm h
  rcases hm : alGet (alErase m k) k' with _ | v'
  · rw [alGet_append_none _ _ _ hm, alGet_cons, if_neg (by simp [hkk])]
    rw [alGet_erase_ne m k k' h] at hm
    rw [alGet_nil, hm]
  · rw [alGet_append_some _ _ _ _ hm]
    rw [alGet_erase_ne m k k' h] at hm
    exact hm.symm

theorem alErase_of_get_none (m : List (String × Entry)) (k : String)
    (h : alGet m k = none) : alErase m k = m := by
  unfold alGet at h
  rcases hf : m.find? (fun p => p.1 == k) with _ | p
  · refine List.filter_eq_self.mpr ?_
    intro p hp
    have := List.find?_eq_none.mp hf p hp
    simpa using this
  · rw [hf] at h
    simp at h

theorem alKeys_erase_sublist (m : List (String × Entry)) (k : String) :
    ((alErase m k).map Prod.fst).Sublist (m.map Prod.fst) :=
  List.Sublist.map _ (List.filter_sublist m)

theorem alKeys_insert_nodup (m : List (String × Entry)) (k : String) (v : Entry)
    (h : (m.map Prod.fst).Nodup) : ((alInsert m k v).map Prod.fst).Nodup := by
  unfold alInsert
  rw [List.map_append]
  refine List.Nodup.append ((alKeys_erase_sublist m k).nodup h) (List.nodup_singleton k) ?_
  intro x hx hx'
  simp only [List.map_cons, List.map_nil, List.mem_singleton] at hx'
  subst hx'
  rcases List.mem_map.mp hx with ⟨p, hp, hpk⟩
  have := List.of_mem_filter hp
  rw [hpk] at this
  simp at this

theorem valpaths_erase_sublist (m : List (String × Entry)) (k : String) :
    ((alErase m k).map (fun p => p.2.path)).Sublist (m.map (fun p => p.2.path)) :=
  List.Sublist.map _ (List.filter_sublist m)

theorem buildRemovedMap_concat (l : List Entry) (e : Entry) :
    buildRemovedMap (l ++ [e]) = alInsert (buildRemovedMap l) e.hash e := by
  simp [buildRemovedMap, List.foldl_append]

theorem buildRemovedMap_getLast (l : List Entry) (h : String) :
    alGet (buildRemovedMap l) h = (l.filter (fun e => e.hash == h)).getLast? := by
  induction l using List.reverseRecOn with
  | nil => rfl
  | append_singleton l e ih =>
    rw [buildRemovedMap_concat, List.filter_append]
    by_cases he : (e.hash == h) = true
    · have heq : h = e.hash := (eq_of_beq he).symm
      rw [heq, alGet_insert_self]
      simp [List.filter_cons, he, List.getLast?_concat]
    · have hne : h ≠ e.hash := by
        intro hk
        exact he (by simp [hk])
      rw [alGet_insert_ne _ _ _ _ hne, ih]
      have : (e.hash == h) = false := by simpa using he
      simp [List.filter_cons, this]

theorem buildRemovedMap_mem (l : List Entry) :
    ∀ p ∈ buildRemovedMap l, p.1 = p.2.hash ∧ p.2 ∈ l := by
  induction l using List.reverseRecOn with
  | nil => intro p hp; simp [buildRemovedMap] at hp
  | append_singleton l e ih =>
    intro p hp
    rw [buildRemovedMap_concat] at hp
    unfold alInsert at hp
    rcases List.mem_append.mp hp with hp1 | hp1
    · have := ih p (List.mem_of_mem_filter hp1)
      exact ⟨this.1, List.mem_append_left _ this.2⟩
    · simp only [List.mem_singleton] at hp1
      subst hp1
      exact ⟨rfl, List.mem_append_right _ (List.mem_singleton_self e)⟩

theorem buildRemovedMap_keys_nodup (l : List Entry) :
    ((buildRemovedMap l).map Prod.fst).Nodup := by
  induction l using List.reverseRecOn with
  | nil => simp [buildRemovedMap]
  | append_singleton l e ih =>
    rw [buildRemovedMap_concat]
    exact alKeys_insert_nodup _ _ _ ih

theorem buildRemovedMap_valpaths_nodup (l : List Entry)
    (hl : (l.map Entry.path).Nodup) :
    ((buildRemovedMap l).map (fun p => p.2.path)).Nodup := by
  have hmn : (buildRemovedMap l).Nodup :=
    (buildRemovedMap_keys_nodup l).of_map
  refine List.Nodup.map_on ?_ hmn
  intro p hp q hq hpq
  have hp' := buildRemovedMap_mem l p hp
  have hq' := buildRemovedMap_mem l q hq
  have hval : p.2 = q.2 :=
    List.inj_on_of_nodup_map hl hp'.2 hq'.2 hpq
  have hkey : p.1 = q.1 := by rw [hp'.1, hq'.1, hval]
  exact List.inj_on_of_nodup_map (buildRemovedMap_keys_nodup l) hp hq hkey

theorem alGet_some_mem (m : List (String × Entry)) (k : String) (v : Entry)
    (h : alGet m k = some v) : ∃ p ∈ m, p.1 = k ∧ p.2 = v := by
  unfold alGet at h
  rcases hf : m.find? (fun p => p.1 == k) with _ | p0
  · rw [hf] at h
    simp at h
  · rw [hf] at h
    simp only [Option.map_some', Option.some_inj] at h
    have hm := List.mem_of_find?_eq_some hf
    have hk := List.find?_some hf
    exact ⟨p0, hm, by simpa using hk, h⟩

theorem moveLoop_length (adds : List Entry) :
    ∀ m : List (String × Entry),
      (moveLoop m adds).1.length + (moveLoop m adds).2.length = adds.length := by
  induction adds with
  | nil => intro m; rfl
  | cons a as ih =>
    intro m
    unfold moveLoop
    cases hget : alGet m a.hash with
    | some val =>
      simp only [hget, List.length_cons]
      have := ih (alErase m a.hash)
      omega
    | none =>
      simp only [hget, List.length_cons]
      have := ih m
      omega

theorem moveLoop_perm (adds : List Entry) :
    ∀ m : List (String × Entry),
      adds.Perm ((moveLoop m adds).1.map Prod.snd ++ (moveLoop m adds).2) := by
  induction adds with
  | nil => intro m; simp [moveLoop]
  | cons a as ih =>
    intro m
    unfold moveLoop
    cases hget : alGet m a.hash with
    | some val =>
      simp only [hget, List.map_cons, List.cons_append]
      exact (ih (alErase m a.hash)).cons a
    | none =>
      simp only [hget]
      exact ((ih m).cons a).trans List.perm_middle.symm

theorem moveLoop_keys_sub (adds : List Entry) :
    ∀ (m : List (String × Entry)) (k : String),
      k ∈ (moveLoop m adds).1.map Prod.fst → k ∈ m.map (fun p => p.2.path) := by
  induction adds with
  | nil => intro m k hk; simp [moveLoop] at hk
  | cons a as ih =>
    intro m k hk
    unfold moveLoop at hk
    cases hget : alGet m a.hash with
    | some val =>
      rw [hget] at hk
      simp only [List.map_cons, List.mem_cons] at hk
      rcases hk with rfl | hk
      · rcases alGet_some_mem m a.hash val hget with ⟨p0, hp0, _, hp0v⟩
        rw [← hp0v]
        exact List.mem_map_of_mem _ hp0
      · exact (valpaths_erase_sublist m a.hash).subset (ih (alErase m a.hash) k hk)
    | none =>
      rw [hget] at hk
      exact ih m k hk

theorem moveLoop_keys_nodup (adds : List Entry) :
    ∀ m : List (String × Entry),
      (m.map (fun p => p.2.path)).Nodup →
      ((moveLoop m adds).1.map Prod.fst).Nodup := by
  induction adds with
  | nil => intro m _; simp [moveLoop]
  | cons a as ih =>
    intro m hm
    unfold moveLoop
    cases hget : alGet m a.hash with
    | some val =>
      simp only [hget, List.map_cons, List.nodup_cons]
      have herased : ((alErase m a.hash).map (fun p => p.2.path)).Nodup :=
        (valpaths_erase_sublist m a.hash).nodup hm
      refine ⟨?_, ih (alErase m a.hash) herased⟩
      intro hmem
      have hval : val.path ∈ (alErase m a.hash).map (fun p => p.2.path) :=
        moveLoop_keys_sub as (alErase m a.hash) val.path hmem
      rcases List.mem_map.mp hval with ⟨q, hq, hqp⟩
      rcases alGet_some_mem m a.hash val hget with ⟨p0, hp0, hp0k, hp0v⟩
      have hq' : q ∈ m.filter (fun p => p.1 != a.hash) := hq
      have hqm : q ∈ m := List.mem_of_mem_filter hq'
      have : q = p0 := by
        refine List.inj_on_of_nodup_map hm hqm hp0 ?_
        rw [hqp, hp0v]
      have hqkey := List.of_mem_filter hq'
      simp only [this, hp0k, bne_self_eq_false] at hqkey
      exact Bool.false_ne_true hqkey
    | none =>
      simp only [hget]
      exact ih m hm

theorem moveLoop_hit (adds : List Entry) :
    ∀ (m : List (String × Entry)) (h : String) (v : Entry),
      alGet m h = some v → (∃ a ∈ adds, a.hash = h) →
      ∃ a, a ∈ adds ∧ a.hash = h ∧ (v.path, a) ∈ (moveLoop m adds).1 := by
  induction adds with
  | nil => intro m h v _ hex; simp at hex
  | cons a as ih =>
    intro m h v hget hex
    by_cases hah : a.hash = h
    · refine ⟨a, List.mem_cons_self _ _, hah, ?_⟩
      unfold moveLoop
      rw [hah, hget]
      exact List.mem_cons_self _ _
    · have hex' : ∃ a' ∈ as, a'.hash = h := by
        rcases hex with ⟨a', ha', hh⟩
        rcases List.mem_cons.mp ha' with rfl | ha'
        · exact absurd hh hah
        · exact ⟨a', ha', hh⟩
      unfold moveLoop
      cases hget2 : alGet m a.hash with
      | some val =>
        have hne : h ≠ a.hash := fun hk => hah hk.symm
        have hget3 : alGet (alErase m a.hash) h = some v := by
          rw [alGet_erase_ne m a.hash h hne]
          exact hget
        rcases ih (alErase m a.hash) h v hget3 hex' with ⟨a', ha', hh, hpair⟩
        exact ⟨a', List.mem_cons_of_mem _ ha', hh, List.mem_cons_of_mem _ hpair⟩
      | none =>
        rcases ih m h v hget hex' with ⟨a', ha', hh, hpair⟩
        exact ⟨a', List.mem_cons_of_mem _ ha', hh, hpair⟩

theorem alGet_foldl_insert_not_mem (ps : List (String × Entry)) :
    ∀ (mv : List (String × Entry)) (k : String), k ∉ ps.map Prod.fst →
      alGet (ps.foldl (fun m p => alInsert m p.1 p.2) mv) k = alGet mv k := by
  induction ps with
  | nil => intro mv k _; rfl
  | cons p ps ih =>
    intro mv k hk
    simp only [List.map_cons, List.mem_cons] at hk
    push_neg at hk
    rw [List.foldl_cons, ih _ k hk.2, alGet_insert_ne _ _ _ _ hk.1]

theorem alGet_foldl_insert_mem (ps : List (String × Entry)) :
    ∀ (mv : List (String × Entry)) (k : String) (v : Entry),
      (ps.map Prod.fst).Nodup → (k, v) ∈ ps →
      alGet (ps.foldl (fun m p => alInsert m p.1 p.2) mv) k = some v := by
  induction ps with
  | nil => intro mv k v _ hmem; simp at hmem
  | cons p ps ih =>
    intro mv k v hnd hmem
    rw [List.map_cons, List.nodup_cons] at hnd
    rw [List.foldl_cons]
    rcases List.mem_cons.mp hmem with rfl | hmem
    · have hk : (k, v).1 ∉ ps.map Prod.fst := hnd.1
      rw [alGet_foldl_insert_not_mem ps _ _ hk]
      exact alGet_insert_self mv k v
    · exact ih _ k v hnd.2 hmem

theorem foldl_insert_length (ps : List (String × Entry)) :
    ∀ mv : List (String × Entry),
      (ps.map Prod.fst).Nodup → (∀ p ∈ ps, alGet mv p.1 = none) →
      (ps.foldl (fun m p => alInsert m p.1 p.2) mv).length = mv.length + ps.length := by
  induction ps with
  | nil => intro mv _ _; rfl
  | cons p ps ih =>
    intro mv hnd hnone
    rw [List.map_cons, List.nodup_cons] at hnd
    rw [List.foldl_cons]
    have hlen : (alInsert mv p.1 p.2).length = mv.length + 1 := by
      unfold alInsert
      rw [alErase_of_get_none mv p.1 (hnone p (List.mem_cons_self _ _))]
      simp
    have hnone' : ∀ q ∈ ps, alGet (alInsert mv p.1 p.2) q.1 = none := by
      intro q hq
      have hqk : q.1 ≠ p.1 := by
        intro hk
        exact hnd.1 (hk ▸ List.mem_map_of_mem _ hq)
      rw [alGet_insert_ne _ _ _ _ hqk]
      exact hnone q (List.mem_cons_of_mem _ hq)
    rw [ih _ hnd.2 hnone', hlen, List.length_cons]
    omega

theorem foldl_statsStep_unchanged_total (es : List (Event Entry)) (ev : Event Entry) :
    (es ++ [ev]).foldl statsStep emptyStats =
      statsStep (es.foldl statsStep emptyStats) ev := by
  rw [List.foldl_append, List.foldl_cons, List.foldl_nil]

theorem mem_of_getLast?_some {α : Type} {l : List α} {a : α}
    (h : l.getLast? = some a) : a ∈ l := by
  have hm : a ∈ l.getLast? := Option.mem_def.mpr h
  rcases List.mem_getLast?_eq_getLast hm with ⟨hne, rfl⟩
  exact List.getLast_mem hne

theorem getLast?_eq_of_all {α : Type} (l : List α) (c : α) (hne : l ≠ [])
    (hall : ∀ x ∈ l, x = c) : l.getLast? = some c := by
  rw [List.getLast?_eq_getLast_of_ne_nil hne]
  exact congrArg some (hall _ (List.getLast_mem hne))

theorem computeMoved_added_eq (s : Stats) :
    (computeMoved s).added = (moveLoop (buildRemovedMap s.removed) s.added).2 := rfl

theorem computeMoved_moved_eq (s : Stats) :
    (computeMoved s).moved = (moveLoop (buildRemovedMap s.removed) s.added).1.foldl
      (fun mv p => alInsert mv p.1 p.2) s.moved := rfl

theorem computeMoved_removed_eq (s : Stats) :
    (computeMoved s).removed = s.removed.filter (fun e =>
      (alGet ((moveLoop (buildRemovedMap s.removed) s.added).1.foldl
        (fun mv p => alInsert mv p.1 p.2) s.moved) e.path).isNone) := rfl

theorem preStats_added (events : List (Event Entry)) :
    (events.foldl statsStep emptyStats).added = addedOf events := by
  rw [foldl_statsStep_added]
  simp [emptyStats]

theorem preStats_removed (events : List (Event Entry)) :
    (events.foldl statsStep emptyStats).removed = removedOf events := by
  rw [foldl_statsStep_removed]
  simp [emptyStats]

theorem preStats_moved (events : List (Event Entry)) :
    (events.foldl statsStep emptyStats).moved = [] := by
  rw [foldl_statsStep_moved]
  rfl

theorem foldl_statsStep_total (es : List (Event Entry)) :
    ∀ s : Stats,
      s.total = s.added.length + s.updated.length + s.updated_bitrot.length +
        s.unchanged.length →
      (es.foldl statsStep s).total =
        (es.foldl statsStep s).added.length + (es.foldl statsStep s).updated.length +
        (es.foldl statsStep s).updated_bitrot.length +
        (es.foldl statsStep s).unchanged.length := by
  induction es with
  | nil => intro s h; exact h
  | cons ev es ih =>
    intro s h
    rw [List.foldl_cons]
    refine ih _ ?_
    cases ev with
    | ADDED n =>
      simp only [statsStep, List.length_append, List.length_cons, List.length_nil]
      omega
    | REMOVED o =>
      simpa only [statsStep] using h
    | UPDATED o n =>
      simp only [statsStep]
      split <;>
        simp only [List.length_append, List.length_cons, List.length_nil] <;> omega
    | UNCHANGED o n =>
      simp only [statsStep, List.length_append, List.length_cons, List.length_nil]
      omega

/-- C3: an UPDATED event whose old and new carry the same modification time
but different hashes pushes new to updated_bitrot and never to updated; any
other UPDATED event pushes new to updated and not to updated_bitrot; both
increment total by one. Stated on the full aggregation (post-pass included)
of a stream extended by one UPDATED event. -/
theorem claim_C3_bitrot_rule (es : List (Event Entry)) (o n : Entry) :
    ((o.modified = n.modified ∧ o.hash ≠ n.hash) →
      (statsFromEvents (es ++ [Event.UPDATED o n])).updated_bitrot =
        (statsFromEvents es).updated_bitrot ++ [n] ∧
      (statsFromEvents (es ++ [Event.UPDATED o n])).updated =
        (statsFromEvents es).updated ∧
      (statsFromEvents (es ++ [Event.UPDATED o n])).total =
        (statsFromEvents es).total + 1) ∧
    (¬(o.modified = n.modified ∧ o.hash ≠ n.hash) →
      (statsFromEvents (es ++ [Event.UPDATED o n])).updated =
        (statsFromEvents es).updated ++ [n] ∧
      (statsFromEvents (es ++ [Event.UPDATED o n])).updated_bitrot =
        (statsFromEvents es).updated_bitrot ∧
      (statsFromEvents (es ++ [Event.UPDATED o n])).total =
        (statsFromEvents es).total + 1) := by
  unfold statsFromEvents
  rw [computeMoved_updated, computeMoved_updated, computeMoved_updated_bitrot,
    computeMoved_updated_bitrot, computeMoved_total, computeMoved_total,
    foldl_statsStep_unchanged_total]
  constructor
  · intro h
    have hguard : (o.modified == n.modified && !(Entry.compare_hash o n)) = true := by
      simp [Entry.compare_hash, h.1, h.2]
    simp only [statsStep]
    rw [if_pos hguard]
    exact ⟨rfl, rfl, rfl⟩
  · intro h
    have hguard : (o.modified == n.modified && !(Entry.compare_hash o n)) = false := by
      rcases Decidable.not_and_iff_or_not.mp h with h1 | h1
      · simp [h1]
      · have : o.hash = n.hash := not_not.mp h1
        simp [Entry.compare_hash, this]
    simp only [statsStep]
    rw [if_neg (by simp [hguard])]
    exact ⟨rfl, rfl, rfl⟩

def entUOld : Entry := ⟨"u.txt", "u.txt", "ha", 1, 5⟩

def entUNew : Entry := ⟨"u.txt", "u.txt", "hb", 1, 5⟩

/-- Witness for C3: one UPDATED event with equal timestamps and differing
hashes lands in updated_bitrot and not in updated. -/
theorem claim_C3_witness :
    (entUOld.modified = entUNew.modified ∧ entUOld.hash ≠ entUNew.hash) ∧
    ((statsFromEvents ([] ++ [Event.UPDATED entUOld entUNew])).updated_bitrot =
        (statsFromEvents []).updated_bitrot ++ [entUNew] ∧
      (statsFromEvents ([] ++ [Event.UPDATED entUOld entUNew])).updated =
        (statsFromEvents []).updated ∧
      (statsFromEvents ([] ++ [Event.UPDATED entUOld entUNew])).total =
        (statsFromEvents []).total + 1) :=
  ⟨by decide, (claim_C3_bitrot_rule [] entUOld entUNew).1 (by decide)⟩

/-- C6 counterexample: the UNCHANGED arm of Stats::from_iter pushes the old
reference, not the new one; with distinguishable old and new entries the
unchanged bucket holds old and does not contain new. -/
theorem claim_C6_counterexample :
    (statsFromEvents [Event.UNCHANGED entUOld entUNew]).unchanged = [entUOld] ∧
    entUOld ≠ entUNew ∧
    entUNew ∉ (statsFromEvents [Event.UNCHANGED entUOld entUNew]).unchanged := by
  decide

/-- C6 amended: an UNCHANGED event pushes the old entry reference (the code
retains old, not new) to the unchanged bucket and increments total by one. -/
theorem claim_C6_unchanged_pushes_old (es : List (Event Entry)) (o n : Entry) :
    (statsFromEvents (es ++ [Event.UNCHANGED o n])).unchanged =
      (statsFromEvents es).unchanged ++ [o] ∧
    (statsFromEvents (es ++ [Event.UNCHANGED o n])).total =
      (statsFromEvents es).total + 1 := by
  unfold statsFromEvents
  rw [computeMoved_unchanged, computeMoved_unchanged, computeMoved_total,
    computeMoved_total, foldl_statsStep_unchanged_total]
  exact ⟨rfl, rfl⟩

/-- C5 amended: for event streams whose REMOVED entries have pairwise
distinct paths (as any stream produced by the sorted merge has), the total
equals the sum of the sizes of the added, updated, updated_bitrot,
unchanged and moved buckets after the move-detection post-pass; a REMOVED
event never changes total; and the post-pass itself never changes total. -/
theorem claim_C5_total_counts (events : List (Event Entry))
    (hRp : ((removedOf events).map Entry.path).Nodup) :
    ((statsFromEvents events).total =
      (statsFromEvents events).added.length + (statsFromEvents events).updated.length +
      (statsFromEvents events).updated_bitrot.length +
      (statsFromEvents events).unchanged.length +
      (statsFromEvents events).moved.length) ∧
    (∀ (es : List (Event Entry)) (o : Entry),
      (statsFromEvents (es ++ [Event.REMOVED o])).total = (statsFromEvents es).total) ∧
    (∀ t : Stats, (computeMoved t).total = t.total) := by
  refine ⟨?_, ?_, fun t => computeMoved_total t⟩
  · have hrem := preStats_removed events
    have hmov := preStats_moved events
    have htot := foldl_statsStep_total events emptyStats rfl
    have hknd : ((moveLoop (buildRemovedMap (events.foldl statsStep emptyStats).removed)
        (events.foldl statsStep emptyStats).added).1.map Prod.fst).Nodup := by
      rw [hrem]
      exact moveLoop_keys_nodup _ _ (buildRemovedMap_valpaths_nodup _ hRp)
    have hml := moveLoop_length (events.foldl statsStep emptyStats).added
      (buildRemovedMap (events.foldl statsStep emptyStats).removed)
    have hfl := foldl_insert_length
      (moveLoop (buildRemovedMap (events.foldl statsStep emptyStats).removed)
        (events.foldl statsStep emptyStats).added).1 [] hknd (by intro p _; rfl)
    unfold statsFromEvents
    rw [computeMoved_total, computeMoved_added_eq, computeMoved_moved_eq,
      computeMoved_updated, computeMoved_updated_bitrot, computeMoved_unchanged,
      hmov, htot]
    rw [hfl]
    simp only [List.length_nil]
    omega
  · intro es o
    unfold statsFromEvents
    rw [computeMoved_total, computeMoved_total, foldl_statsStep_unchanged_total]
    rfl

def entRP1 : Entry := ⟨"p.txt", "p.txt", "h1", 1, 1⟩

def entRP2 : Entry := ⟨"p.txt", "p.txt", "h2", 1, 1⟩

def entAQ1 : Entry := ⟨"q1.txt", "q1.txt", "h1", 1, 1⟩

def entAQ2 : Entry := ⟨"q2.txt", "q2.txt", "h2", 1, 1⟩

def ex5Events : List (Event Entry) :=
  [Event.REMOVED entRP1, Event.REMOVED entRP2,
   Event.ADDED entAQ1, Event.ADDED entAQ2]

/-- C5 counterexample: a stream with two REMOVED entries sharing one path
but carrying different hashes, and two ADDED entries matching those hashes.
Both removed entries are matched, but the two moved insertions collide on
the shared path key, so the moved map holds one entry while total counted
two ADDED events: total is 2 and the bucket sizes sum to 1, refuting the
claim for arbitrary streams. -/
theorem claim_C5_counterexample :
    (statsFromEvents ex5Events).total = 2 ∧
    (statsFromEvents ex5Events).added.length + (statsFromEvents ex5Events).updated.length +
      (statsFromEvents ex5Events).updated_bitrot.length +
      (statsFromEvents ex5Events).unchanged.length +
      (statsFromEvents ex5Events).moved.length = 1 ∧
    (statsFromEvents ex5Events).total ≠
      (statsFromEvents ex5Events).added.length + (statsFromEvents ex5Events).updated.length +
      (statsFromEvents ex5Events).updated_bitrot.length +
      (statsFromEvents ex5Events).unchanged.length +
      (statsFromEvents ex5Events).moved.length := by
  decide

def wit5Events : List (Event Entry) :=
  [Event.REMOVED entRP1, Event.ADDED entAQ2, Event.UNCHANGED entUOld entUNew]

/-- Witness for C5 on a concrete stream with distinct removed paths. -/
theorem claim_C5_witness :
    ((removedOf wit5Events).map Entry.path).Nodup ∧
    ((statsFromEvents wit5Events).total =
      (statsFromEvents wit5Events).added.length + (statsFromEvents wit5Events).updated.length +
      (statsFromEvents wit5Events).updated_bitrot.length +
      (statsFromEvents wit5Events).unchanged.length +
      (statsFromEvents wit5Events).moved.length) ∧
    (∀ (es : List (Event Entry)) (o : Entry),
      (statsFromEvents (es ++ [Event.REMOVED o])).total = (statsFromEvents es).total) ∧
    (∀ t : Stats, (computeMoved t).total = t.total) :=
  ⟨by decide, claim_C5_total_counts wit5Events (by decide)⟩

/-- C2 amended: in a stream whose ADDED and REMOVED entries each have
pairwise distinct paths (as any stream produced by the sorted merge has),
if an entry removed at path P and an entry added at path Q carry the same
hash, no other removed entry shares that hash and no other added entry
shares that hash, then the final moved map sends P to the added entry, P is
absent from the removed bucket, and the added entry is absent from the
added bucket; moreover the hash-to-removed-entry map is built with later
removed entries overwriting earlier ones, so its binding for any hash is
the last removed entry with that hash. -/
theorem claim_C2_move_detection (events : List (Event Entry)) (eP eQ : Entry)
    (hR : eP ∈ removedOf events) (hA : eQ ∈ addedOf events)
    (hhash : eP.hash = eQ.hash)
    (hRu : ∀ r ∈ removedOf events, r.hash = eP.hash → r = eP)
    (hAu : ∀ a ∈ addedOf events, a.hash = eQ.hash → a = eQ)
    (hRp : ((removedOf events).map Entry.path).Nodup)
    (hAp : ((addedOf events).map Entry.path).Nodup) :
    alGet (statsFromEvents events).moved eP.path = some eQ ∧
    eP.path ∉ (statsFromEvents events).removed.map Entry.path ∧
    eQ ∉ (statsFromEvents events).added ∧
    (∀ h : String, alGet (buildRemovedMap (removedOf events)) h =
      ((removedOf events).filter (fun r => r.hash == h)).getLast?) := by
  have hadded := preStats_added events
  have hrem := preStats_removed events
  have hmov := preStats_moved events
  -- the removed map binds eP.hash to eP
  have hgetP : alGet (buildRemovedMap (removedOf events)) eP.hash = some eP := by
    rw [buildRemovedMap_getLast]
    refine getLast?_eq_of_all _ _ ?_ ?_
    · exact List.ne_nil_of_mem (List.mem_filter.mpr ⟨hR, by simp⟩)
    · intro x hx
      rcases List.mem_filter.mp hx with ⟨hxm, hxh⟩
      exact hRu x hxm (by simpa using hxh)
  -- the loop matches eQ against eP
  have hexA : ∃ a ∈ addedOf events, a.hash = eP.hash := ⟨eQ, hA, hhash.symm⟩
  rcases moveLoop_hit (addedOf events) (buildRemovedMap (removedOf events))
      eP.hash eP hgetP hexA with ⟨a, haA, hahash, hpair⟩
  have haQ : a = eQ := hAu a haA (by rw [hahash, hhash])
  rw [haQ] at hpair
  have hknd : ((moveLoop (buildRemovedMap (removedOf events))
      (addedOf events)).1.map Prod.fst).Nodup :=
    moveLoop_keys_nodup _ _ (buildRemovedMap_valpaths_nodup _ hRp)
  have hmoved : alGet ((moveLoop (buildRemovedMap (removedOf events))
      (addedOf events)).1.foldl (fun mv p => alInsert mv p.1 p.2) []) eP.path = some eQ :=
    alGet_foldl_insert_mem _ [] eP.path eQ hknd hpair
  have hmovedProj : (statsFromEvents events).moved =
      (moveLoop (buildRemovedMap (removedOf events)) (addedOf events)).1.foldl
        (fun mv p => alInsert mv p.1 p.2) [] := by
    unfold statsFromEvents
    rw [computeMoved_moved_eq, hadded, hrem, hmov]
  refine ⟨by rw [hmovedProj]; exact hmoved, ?_, ?_,
    fun h => buildRemovedMap_getLast (removedOf events) h⟩
  · -- eP.path is not among the paths of the rebuilt removed bucket
    intro hmem
    rcases List.mem_map.mp hmem with ⟨r, hrmem, hrpath⟩
    have : (statsFromEvents events).removed =
        (removedOf events).filter (fun e =>
          (alGet ((moveLoop (buildRemovedMap (removedOf events))
            (addedOf events)).1.foldl (fun mv p => alInsert mv p.1 p.2) []) e.path).isNone) := by
      unfold statsFromEvents
      rw [computeMoved_removed_eq, hadded, hrem, hmov]
    rw [this] at hrmem
    have hnone := List.of_mem_filter hrmem
    rw [hrpath, hmoved] at hnone
    simp at hnone
  · -- eQ left the added bucket
    intro hmem
    have haddedProj : (statsFromEvents events).added =
        (moveLoop (buildRemovedMap (removedOf events)) (addedOf events)).2 := by
      unfold statsFromEvents
      rw [computeMoved_added_eq, hadded, hrem]
    rw [haddedProj] at hmem
    have hperm := moveLoop_perm (addedOf events) (buildRemovedMap (removedOf events))
    have hnodupA : (addedOf events).Nodup := hAp.of_map
    have hnodup2 := hperm.nodup_iff.mp hnodupA
    rcases List.nodup_append.mp hnodup2 with ⟨_, _, hdisj⟩
    have hleft : eQ ∈ (moveLoop (buildRemovedMap (removedOf events))
        (addedOf events)).1.map Prod.snd := by
      exact List.mem_map.mpr ⟨(eP.path, eQ), hpair, rfl⟩
    exact hdisj hleft hmem

def entP : Entry := ⟨"p.txt", "p.txt", "hh", 1, 1⟩

def entQ1 : Entry := ⟨"q1.txt", "q1.txt", "hh", 1, 1⟩

def entQ2 : Entry := ⟨"q2.txt", "q2.txt", "hh", 1, 1⟩

def ex2Events : List (Event Entry) :=
  [Event.REMOVED entP, Event.ADDED entQ1, Event.ADDED entQ2]

/-- C2 counterexample: with one removed entry at p.txt and two added
entries at q1.txt and q2.txt all sharing one hash, the pair (p.txt, q2.txt)
satisfies the claim's hypotheses (q2.txt is added, p.txt is removed, hashes
equal, no other removed entry shares the hash), yet the moved map sends
p.txt to the q1.txt entry and the q2.txt entry stays in added. -/
theorem claim_C2_counterexample :
    (entQ2 ∈ addedOf ex2Events ∧ entP ∈ removedOf ex2Events ∧
      entP.hash = entQ2.hash ∧
      (∀ r ∈ removedOf ex2Events, r.hash = entP.hash → r = entP)) ∧
    ¬(alGet (statsFromEvents ex2Events).moved entP.path = some entQ2 ∧
      entP.path ∉ (statsFromEvents ex2Events).removed.map Entry.path ∧
      entQ2 ∉ (statsFromEvents ex2Events).added) := by
  decide

def wit2Events : List (Event Entry) :=
  [Event.REMOVED entP, Event.ADDED entQ1, Event.ADDED entAQ2]

/-- Witness for C2 at a concrete stream: one removed and one added entry
share a hash held by no other entry on either side. -/
theorem claim_C2_witness :
    (entP ∈ removedOf wit2Events ∧ entQ1 ∈ addedOf wit2Events ∧
      entP.hash = entQ1.hash ∧
      (∀ r ∈ removedOf wit2Events, r.hash = entP.hash → r = entP) ∧
      (∀ a ∈ addedOf wit2Events, a.hash = entQ1.hash → a = entQ1) ∧
      ((removedOf wit2Events).map Entry.path).Nodup ∧
      ((addedOf wit2Events).map Entry.path).Nodup) ∧
    (alGet (statsFromEvents wit2Events).moved entP.path = some entQ1 ∧
      entP.path ∉ (statsFromEvents wit2Events).removed.map Entry.path ∧
      entQ1 ∉ (statsFromEvents wit2Events).added ∧
      (∀ h : String, alGet (buildRemovedMap (removedOf wit2Events)) h =
        ((removedOf wit2Events).filter (fun r => r.hash == h)).getLast?)) :=
  ⟨by decide,
   claim_C2_move_detection wit2Events entP entQ1 (by decide) (by decide) (by decide)
     (by decide) (by decide) (by decide) (by decide)⟩

/-- C10 amended: in a stream whose ADDED and REMOVED entries each have
pairwise distinct paths, if at least one added entry and at least one
removed entry carry the empty hash (hash never computed), the post-pass
pairs one such added entry with one such removed entry as a move: the moved
map binds that removed entry's path to the added entry, the added entry
leaves the added bucket and the removed entry leaves the removed bucket. -/
theorem claim_C10_empty_hash_move (events : List (Event Entry))
    (hA : ∃ a ∈ addedOf events, a.hash = "")
    (hRr : ∃ r ∈ removedOf events, r.hash = "")
    (hAp : ((addedOf events).map Entry.path).Nodup)
    (hRp : ((removedOf events).map Entry.path).Nodup) :
    ∃ a ∈ addedOf events, ∃ r ∈ removedOf events, a.hash = "" ∧ r.hash = "" ∧
      alGet (statsFromEvents events).moved r.path = some a ∧
      a ∉ (statsFromEvents events).added ∧
      r ∉ (statsFromEvents events).removed := by
  have hadded := preStats_added events
  have hrem := preStats_removed events
  have hmov := preStats_moved events
  -- the last removed entry with empty hash is bound in the removed map
  rcases hRr with ⟨r0, hr0, hr0h⟩
  have hfne : (removedOf events).filter (fun e => e.hash == "") ≠ [] :=
    List.ne_nil_of_mem (List.mem_filter.mpr ⟨hr0, by simp [hr0h]⟩)
  rcases hlast : ((removedOf events).filter (fun e => e.hash == "")).getLast? with _ | rstar
  · exact absurd (List.getLast?_eq_none_iff.mp hlast) hfne
  have hrsmem : rstar ∈ (removedOf events).filter (fun e => e.hash == "") :=
    mem_of_getLast?_some hlast
  rcases List.mem_filter.mp hrsmem with ⟨hrsR, hrsh⟩
  have hrshash : rstar.hash = "" := by simpa using hrsh
  have hget : alGet (buildRemovedMap (removedOf events)) "" = some rstar := by
    rw [buildRemovedMap_getLast, hlast]
  rcases moveLoop_hit (addedOf events) (buildRemovedMap (removedOf events))
      "" rstar hget hA with ⟨a, haA, hahash, hpair⟩
  have hknd : ((moveLoop (buildRemovedMap (removedOf events))
      (addedOf events)).1.map Prod.fst).Nodup :=
    moveLoop_keys_nodup _ _ (buildRemovedMap_valpaths_nodup _ hRp)
  have hmoved : alGet ((moveLoop (buildRemovedMap (removedOf events))
      (addedOf events)).1.foldl (fun mv p => alInsert mv p.1 p.2) []) rstar.path = some a :=
    alGet_foldl_insert_mem _ [] rstar.path a hknd hpair
  have hmovedProj : (statsFromEvents events).moved =
      (moveLoop (buildRemovedMap (removedOf events)) (addedOf events)).1.foldl
        (fun mv p => alInsert mv p.1 p.2) [] := by
    unfold statsFromEvents
    rw [computeMoved_moved_eq, hadded, hrem, hmov]
  refine ⟨a, haA, rstar, hrsR, hahash, hrshash, by rw [hmovedProj]; exact hmoved, ?_, ?_⟩
  · intro hmem
    have haddedProj : (statsFromEvents events).added =
        (moveLoop (buildRemovedMap (removedOf events)) (addedOf events)).2 := by
      unfold statsFromEvents
      rw [computeMoved_added_eq, hadded, hrem]
    rw [haddedProj] at hmem
    have hperm := moveLoop_perm (addedOf events) (buildRemovedMap (removedOf events))
    have hnodupA : (addedOf events).Nodup := hAp.of_map
    have hnodup2 := hperm.nodup_iff.mp hnodupA
    rcases List.nodup_append.mp hnodup2 with ⟨_, _, hdisj⟩
    have hleft : a ∈ (moveLoop (buildRemovedMap (removedOf events))
        (addedOf events)).1.map Prod.snd :=
      List.mem_map.mpr ⟨(rstar.path, a), hpair, rfl⟩
    exact hdisj hleft hmem
  · intro hmem
    have hremProj : (statsFromEvents events).removed =
        (removedOf events).filter (fun e =>
          (alGet ((moveLoop (buildRemovedMap (removedOf events))
            (addedOf events)).1.foldl (fun mv p => alInsert mv p.1 p.2) []) e.path).isNone) := by
      unfold statsFromEvents
      rw [computeMoved_removed_eq, hadded, hrem, hmov]
    rw [hremProj] at hmem
    have hnone := List.of_mem_filter hmem
    rw [hmoved] at hnone
    simp at hnone

def entR1e : Entry := ⟨"p.txt", "p.txt", "", 1, 1⟩

def entR2x : Entry := ⟨"p.txt", "p.txt", "x", 1, 1⟩

def entA1e : Entry := ⟨"q1.txt", "q1.txt", "", 1, 1⟩

def entA2x : Entry := ⟨"q2.txt", "q2.txt", "x", 1, 1⟩

def ex10Events : List (Event Entry) :=
  [Event.REMOVED entR1e, Event.REMOVED entR2x,
   Event.ADDED entA1e, Event.ADDED entA2x]

/-- C10 counterexample: two removed entries share the path p.txt (one with
empty hash, one with hash x) and both are matched by added entries; the
second moved insertion overwrites the first at key p.txt, so the only
empty-hash pairing (q1.txt against p.txt) is not recorded in the moved map,
refuting the claim for arbitrary streams. -/
theorem claim_C10_counterexample :
    (∃ a ∈ addedOf ex10Events, a.hash = "") ∧
    (∃ r ∈ removedOf ex10Events, r.hash = "") ∧
    ¬(∃ a ∈ addedOf ex10Events, ∃ r ∈ removedOf ex10Events,
        a.hash = "" ∧ r.hash = "" ∧
        alGet (statsFromEvents ex10Events).moved r.path = some a ∧
        a ∉ (statsFromEvents ex10Events).added ∧
        r ∉ (statsFromEvents ex10Events).removed) := by
  decide

def wit10Events : List (Event Entry) :=
  [Event.REMOVED entR1e, Event.ADDED entA1e, Event.ADDED entA2x]

/-- Witness for C10 at a concrete stream with one empty-hash removed entry
and one empty-hash added entry. -/
theorem claim_C10_witness :
    ((∃ a ∈ addedOf wit10Events, a.hash = "") ∧
     (∃ r ∈ removedOf wit10Events, r.hash = "") ∧
     ((addedOf wit10Events).map Entry.path).Nodup ∧
     ((removedOf wit10Events).map Entry.path).Nodup) ∧
    (∃ a ∈ addedOf wit10Events, ∃ r ∈ removedOf wit10Events,
      a.hash = "" ∧ r.hash = "" ∧
      alGet (statsFromEvents wit10Events).moved r.path = some a ∧
      a ∉ (statsFromEvents wit10Events).added ∧
      r ∉ (statsFromEvents wit10Events).removed) :=
  ⟨by decide,
   claim_C10_empty_hash_move wit10Events (by decide) (by decide) (by decide) (by decide)⟩

def entA : Entry := ⟨"a.txt", "a.txt", "h1", 1, 10⟩

def entB : Entry := ⟨"b.txt", "b.txt", "h2", 2, 20⟩

def entB2 : Entry := ⟨"b.txt", "b.txt", "h3", 2, 20⟩

def entC : Entry := ⟨"c.txt", "c.txt", "h4", 3, 30⟩

/-- Witness for C1 at a concrete input: old entries with keys a.txt, b.txt
against new entries with keys b.txt, c.txt. -/
theorem claim_C1_witness :
    (([entA, entB].map Entry.norm_path).Pairwise (· < ·)) ∧
    (([entB2, entC].map Entry.norm_path).Pairwise (· < ·)) ∧
    (((diff_iter Entry.norm_path Entry.compare_hash_and_mtime [entA, entB]
        [entB2, entC]).map (eventKey Entry.norm_path)).Pairwise (· < ·) ∧
     (∀ k : String, k ∈ (diff_iter Entry.norm_path Entry.compare_hash_and_mtime
        [entA, entB] [entB2, entC]).map (eventKey Entry.norm_path) ↔
        k ∈ [entA, entB].map Entry.norm_path ∨
        k ∈ [entB2, entC].map Entry.norm_path) ∧
     (∀ ev ∈ diff_iter Entry.norm_path Entry.compare_hash_and_mtime
        [entA, entB] [entB2, entC],
        eventOk Entry.norm_path Entry.compare_hash_and_mtime
          [entA, entB] [entB2, entC] ev)) :=
  ⟨by decide, by decide,
   claim_C1_diff_iter_correct Entry.norm_path Entry.compare_hash_and_mtime
     [entA, entB] [entB2, entC] (by decide) (by decide)⟩

/-! Snapshot store (src/index.rs): two line-oriented records modelled at the
line level, each line a list of characters. BufRead lines become the list of
lines; writeln produces one line per entry. The persisted path text is the
Display form of Entry, which prints norm_path. The norm_path field of
entries reconstructed by the reader is modelled from the spec: the key is
derived from the path by Unicode NFC normalization, threaded here as the
explicit parameter nfc. -/

/-- The total order Entry's Ord induces (src/entry.rs): compare norm_path. -/
def entryLe (a b : Entry) : Prop := a.norm_path ≤ b.norm_path

instance : DecidableRel entryLe := fun a b => decLeString a.norm_path b.norm_path

instance : IsTotal Entry entryLe := ⟨fun a b => le_total a.norm_path b.norm_path⟩

instance : IsTrans Entry entryLe := ⟨fun _ _ _ hab hbc => le_trans hab hbc⟩

/-- Vec::sort_unstable on entries, modelled as a deterministic comparison
sort by the Entry order. -/
def sortEntries (l : List Entry) : List Entry := List.insertionSort entryLe l

/-- Decimal digit character, as Display for unsigned integers produces. -/
def digitChar (n : Nat) : Char := Char.ofNat (48 + n)

/-- Fuel-structured decimal printing; the fuel n + 1 always suffices. -/
def natDigitsCore : Nat → Nat → List Char → List Char
  | 0, _, acc => acc
  | fuel + 1, n, acc =>
    if n < 10 then digitChar n :: acc
    else natDigitsCore fuel (n / 10) (digitChar (n % 10) :: acc)

/-- Decimal representation of a Nat, most significant digit first. -/
def natDigits (n : Nat) : List Char := natDigitsCore (n + 1) n []

def digitVal (c : Char) : Nat := c.toNat - 48

def parseNatAux (ds : List Char) : Nat := ds.foldl (fun a c => a * 10 + digitVal c) 0

/-- Rust unsigned integer FromStr: an optional leading plus sign, then at
least one ASCII digit, rejecting values at or above the type's bound. -/
def parseNatBounded (bound : Nat) (s : List Char) : Option Nat :=
  let ds := if s.head? = some '+' then s.tail else s
  if ds ≠ [] ∧ ds.all (fun c => c.isDigit) then
    if parseNatAux ds < bound then some (parseNatAux ds) else none
  else none

/-- str::splitn(2, two spaces): split at the first occurrence of the
two-space separator, keeping the remainder whole; none when absent. -/
def splitn2 : List Char → Option (List Char × List Char)
  | [] => none
  | c :: rest =>
    if c = ' ' ∧ rest.head? = some ' ' then some ([], rest.tail)
    else (splitn2 rest).map (fun p => (c :: p.1, p.2))

/-- One hash record line (src/index.rs write_hash_index): hash, two spaces,
then the entry's Display form, which is norm_path. -/
def hashLine (e : Entry) : List Char :=
  e.hash.data ++ ' ' :: ' ' :: e.norm_path.data

/-- One metadata record line (src/index.rs write_meta_index): modified, two
spaces, length, two spaces, then the entry's Display form. -/
def metaLine (e : Entry) : List Char :=
  natDigits e.modified ++ ' ' :: ' ' :: (natDigits e.len ++ ' ' :: ' ' :: e.norm_path.data)

/-- save (src/index.rs): write both records, one line per entry, in input
order. -/
def save (entries : List Entry) : List (List Char) × List (List Char) :=
  (entries.map hashLine, entries.map metaLine)

/-- read_hash_index's line parser (src/index.rs lines 34-46): split once on
the two-space separator; hash before it, path after it, length and modified
zeroed. The norm_path field is modelled from the spec (NFC key of path). -/
def parseHashLine (nfc : String → String) (line : List Char) : Except String Entry :=
  match splitn2 line with
  | none => Except.error "invalid hash index"
  | some (h, p) =>
    Except.ok { path := String.mk p, norm_path := nfc (String.mk p),
                hash := String.mk h, len := 0, modified := 0 }

/-- read_meta_index's line parser (src/index.rs lines 49-65): split twice on
the two-space separator into modified, length and path; the length must
parse as u64 and the timestamp as u128. The norm_path field is modelled
from the spec (NFC key of path). -/
def parseMetaLine (nfc : String → String) (line : List Char) : Except String Entry :=
  match splitn2 line with
  | none => Except.error "meta index: invalid line format"
  | some (f0, rest) =>
    match splitn2 rest with
    | none => Except.error "meta index: invalid line format"
    | some (f1, f2) =>
      match parseNatBounded (2 ^ 64) f1 with
      | none => Except.error "invalid meta format: invalid length"
      | some len =>
        match parseNatBounded (2 ^ 128) f0 with
        | none => Except.error "invalid meta format: invalid modified timestamp"
        | some m =>
          Except.ok { path := String.mk f2, norm_path := nfc (String.mk f2),
                      hash := "", len := len, modified := m }

/-- The filter-then-collect of read_index (src/index.rs lines 72-80): parse
results that are errors are kept and abort the collection at the first one;
parsed entries whose path the filter rejects are dropped. -/
def collectFiltered (flt : String → Bool) :
    List (Except String Entry) → Except String (List Entry)
  | [] => Except.ok []
  | Except.error e :: _ => Except.error e
  | Except.ok en :: rest =>
    if flt en.path then (collectFiltered flt rest).map (fun l => en :: l)
    else collectFiltered flt rest

/-- read_index (src/index.rs lines 67-87): parse every line, filter, collect
to the first error, then sort the surviving entries by the Entry order. -/
def read_index (flt : String → Bool) (parse : List Char → Except String Entry)
    (lines : List (List Char)) : Except String (List Entry) :=
  (collectFiltered flt (lines.map parse)).map sortEntries

def read_hash_index (nfc : String → String) (flt : String → Bool)
    (lines : List (List Char)) : Except String (List Entry) :=
  read_index flt (parseHashLine nfc) lines

def read_meta_index (nfc : String → String) (flt : String → Bool)
    (lines : List (List Char)) : Except String (List Entry) :=
  read_index flt (parseMetaLine nfc) lines

/-- The entry combination of join_indices (src/index.rs lines 100-105): path
and hash from the hash record entry, length and modified from the metadata
record entry. The norm_path field is modelled from the spec (NFC key). -/
def joinEntry (nfc : String → String) (i1 i2 : Entry) : Entry :=
  { path := i1.path, norm_path := nfc i1.path, hash := i1.hash,
    len := i2.len, modified := i2.modified }

/-- First-error collection of join results (collect into Result of Vec). -/
def collectE : List (Except String Entry) → Except String (List Entry)
  | [] => Except.ok []
  | Except.error e :: _ => Except.error e
  | Except.ok en :: rest => (collectE rest).map (fun l => en :: l)

/-- join_indices (src/index.rs lines 89-108): equal entry counts required,
then the two records are zipped in order; any position where the paths
differ is a hard error, otherwise the entries are combined. -/
def join_indices (nfc : String → String) (hidx midx : List Entry) :
    Except String (List Entry) :=
  if hidx.length = midx.length then
    collectE ((hidx.zip midx).map (fun p =>
      if p.1.path = p.2.path then Except.ok (joinEntry nfc p.1 p.2)
      else Except.error "path of index entries do not match"))
  else Except.error "indices must have same number of entries"

/-- load (src/index.rs lines 21-25): read both records, then join them. -/
def load (nfc : String → String) (flt : String → Bool)
    (hashLines metaLines : List (List Char)) : Except String (List Entry) :=
  match read_hash_index nfc flt hashLines with
  | Except.error e => Except.error e
  | Except.ok hidx =>
    match read_meta_index nfc flt metaLines with
    | Except.error e => Except.error e
    | Except.ok midx => join_indices nfc hidx midx

def hashIndexName : String := ".checksums.sha256"

def metaIndexName : String := ".checksums.meta"

/-- DefaultPathFilter (src/filter/mod.rs): exclude exactly the two records
themselves; the root-joined string comparison reduces to comparing the
relative path against the two record names. -/
def defaultFilter (p : String) : Bool :=
  !(p == hashIndexName || p == metaIndexName)

deriving instance DecidableEq for Except

theorem digitChar_isDigit (n : Nat) (h : n < 10) : (digitChar n).isDigit = true := by
  interval_cases n <;> decide

theorem digitVal_digitChar (n : Nat) (h : n < 10) : digitVal (digitChar n) = n := by
  interval_cases n <;> decide

theorem digitChar_ne_plus (n : Nat) (h : n < 10) : digitChar n ≠ '+' := by
  interval_cases n <;> decide

theorem isDigit_ne_space (c : Char) (h : c.isDigit = true) : c ≠ ' ' := by
  intro he
  subst he
  exact absurd h (by decide)

theorem natDigitsCore_spec :
    ∀ (fuel n : Nat) (acc : List Char), n < fuel →
      ∃ ds : List Char, natDigitsCore fuel n acc = ds ++ acc ∧ ds ≠ [] ∧
        (∀ c ∈ ds, c.isDigit = true) ∧ (∀ c ∈ ds, c ≠ '+') ∧
        ∀ a : Nat, ds.foldl (fun x c => x * 10 + digitVal c) a = a * 10 ^ ds.length + n := by
  intro fuel
  induction fuel with
  | zero => intro n acc h; omega
  | succ fuel ih =>
    intro n acc h
    by_cases h10 : n < 10
    · refine ⟨[digitChar n], ?_, by simp, ?_, ?_, ?_⟩
      · simp [natDigitsCore, h10]
      · intro c hc
        rw [List.mem_singleton] at hc
        subst hc
        exact digitChar_isDigit n h10
      · intro c hc
        rw [List.mem_singleton] at hc
        subst hc
        exact digitChar_ne_plus n h10
      · intro a
        simp [digitVal_digitChar n h10]
    · have hn10 : n / 10 < fuel := by omega
      rcases ih (n / 10) (digitChar (n % 10) :: acc) hn10 with
        ⟨ds', heq, hne, hdig, hplus, hfold⟩
      have hmod : n % 10 < 10 := Nat.mod_lt _ (by omega)
      refine ⟨ds' ++ [digitChar (n % 10)], ?_, by simp, ?_, ?_, ?_⟩
      · show natDigitsCore (fuel + 1) n acc = _
        rw [natDigitsCore, if_neg h10, heq, List.append_assoc]
        rfl
      · intro c hc
        rcases List.mem_append.mp hc with hc | hc
        · exact hdig c hc
        · rw [List.mem_singleton] at hc
          subst hc
          exact digitChar_isDigit _ hmod
      · intro c hc
        rcases List.mem_append.mp hc with hc | hc
        · exact hplus c hc
        · rw [List.mem_singleton] at hc
          subst hc
          exact digitChar_ne_plus _ hmod
      · intro a
        rw [List.foldl_append, hfold a]
        simp only [List.foldl_cons, List.foldl_nil, List.length_append,
          List.length_cons, List.length_nil, digitVal_digitChar _ hmod]
        have hdm : 10 * (n / 10) + n % 10 = n := Nat.div_add_mod n 10
        calc (a * 10 ^ ds'.length + n / 10) * 10 + n % 10
            = a * 10 ^ ds'.length * 10 + (10 * (n / 10) + n % 10) := by ring
          _ = a * 10 ^ ds'.length * 10 + n := by rw [hdm]
          _ = a * 10 ^ (ds'.length + (0 + 1)) + n := by ring

theorem natDigits_spec (n : Nat) :
    natDigits n ≠ [] ∧ (∀ c ∈ natDigits n, c.isDigit = true) ∧
    (∀ c ∈ natDigits n, c ≠ '+') ∧ parseNatAux (natDigits n) = n := by
  rcases natDigitsCore_spec (n + 1) n [] (by omega) with ⟨ds, heq, hne, hdig, hplus, hfold⟩
  have hds : natDigits n = ds := by rw [natDigits, heq, List.append_nil]
  rw [hds]
  refine ⟨hne, hdig, hplus, ?_⟩
  have := hfold 0
  simpa [parseNatAux] using this

theorem parseNatBounded_natDigits (bound n : Nat) (h : n < bound) :
    parseNatBounded bound (natDigits n) = some n := by
  rcases natDigits_spec n with ⟨hne, hdig, hplus, hval⟩
  have hhead : ¬((natDigits n).head? = some '+') := by
    cases hd : natDigits n with
    | nil => simp
    | cons c cs =>
      simp only [List.head?_cons, Option.some_inj]
      intro hc
      exact hplus c (by rw [hd]; exact List.mem_cons_self _ _) hc
  have hall : (natDigits n).all (fun c => c.isDigit) = true :=
    List.all_eq_true.mpr hdig
  unfold parseNatBounded
  rw [if_neg hhead, if_pos ⟨hne, hall⟩, hval, if_pos h]

theorem splitn2_append (xs ys : List Char) (hxs : ∀ c ∈ xs, c ≠ ' ') :
    splitn2 (xs ++ ' ' :: ' ' :: ys) = some (xs, ys) := by
  induction xs with
  | nil =>
    show splitn2 (' ' :: ' ' :: ys) = some ([], ys)
    simp [splitn2]
  | cons c cs ih =>
    have hc : c ≠ ' ' := hxs c (List.mem_cons_self _ _)
    show splitn2 (c :: (cs ++ ' ' :: ' ' :: ys)) = some (c :: cs, ys)
    rw [splitn2, if_neg (fun hand => hc hand.1),
      ih (fun x hx => hxs x (List.mem_cons_of_mem _ hx))]
    rfl

theorem stringMk_data (s : String) : String.mk s.data = s := rfl

theorem parseHashLine_hashLine (nfc : String → String) (e : Entry)
    (hh : ∀ c ∈ e.hash.data, c ≠ ' ') :
    parseHashLine nfc (hashLine e) =
      Except.ok ⟨e.norm_path, nfc e.norm_path, e.hash, 0, 0⟩ := by
  unfold parseHashLine hashLine
  rw [splitn2_append _ _ hh]

theorem parseMetaLine_metaLine (nfc : String → String) (e : Entry)
    (hlen : e.len < 2 ^ 64) (hmod : e.modified < 2 ^ 128) :
    parseMetaLine nfc (metaLine e) =
      Except.ok ⟨e.norm_path, nfc e.norm_path, "", e.len, e.modified⟩ := by
  have hd1 : ∀ c ∈ natDigits e.modified, c ≠ ' ' := fun c hc =>
    isDigit_ne_space c ((natDigits_spec e.modified).2.1 c hc)
  have hd2 : ∀ c ∈ natDigits e.len, c ≠ ' ' := fun c hc =>
    isDigit_ne_space c ((natDigits_spec e.len).2.1 c hc)
  have hs1 := splitn2_append (natDigits e.modified)
    (natDigits e.len ++ ' ' :: ' ' :: e.norm_path.data) hd1
  have hs2 := splitn2_append (natDigits e.len) e.norm_path.data hd2
  have hp1 := parseNatBounded_natDigits (2 ^ 64) e.len hlen
  have hp2 := parseNatBounded_natDigits (2 ^ 128) e.modified hmod
  unfold parseMetaLine metaLine
  simp only [hs1, hs2, hp1, hp2]

theorem collectFiltered_map_ok (flt : String → Bool) (es : List Entry)
    (h : ∀ e ∈ es, flt e.path = true) :
    collectFiltered flt (es.map Except.ok) = Except.ok es := by
  induction es with
  | nil => rfl
  | cons e es ih =>
    simp only [List.map_cons, collectFiltered]
    rw [if_pos (h e (List.mem_cons_self _ _)),
      ih (fun x hx => h x (List.mem_cons_of_mem _ hx))]
    rfl

theorem collectFiltered_error (flt : String → Bool) :
    ∀ xs : List (Except String Entry),
      (∃ x ∈ xs, ∃ m, x = Except.error m) →
      ∃ m, collectFiltered flt xs = Except.error m := by
  intro xs
  induction xs with
  | nil => intro hex; simp at hex
  | cons x xs ih =>
    intro hex
    cases x with
    | error m => exact ⟨m, rfl⟩
    | ok en =>
      have hex' : ∃ y ∈ xs, ∃ m, y = Except.error m := by
        rcases hex with ⟨y, hy, m, hm⟩
        rcases List.mem_cons.mp hy with rfl | hy
        · simp at hm
        · exact ⟨y, hy, m, hm⟩
      rcases ih hex' with ⟨m, hm⟩
      refine ⟨m, ?_⟩
      simp only [collectFiltered]
      by_cases hf : flt en.path = true
      · rw [if_pos hf, hm]
        rfl
      · rw [if_neg hf]
        exact hm

theorem read_index_error (flt : String → Bool) (parse : List Char → Except String Entry)
    (lines : List (List Char))
    (hex : ∃ l ∈ lines, ∃ m, parse l = Except.error m) :
    ∃ m, read_index flt parse lines = Except.error m := by
  have hex' : ∃ x ∈ lines.map parse, ∃ m, x = Except.error m := by
    rcases hex with ⟨l, hl, m, hm⟩
    exact ⟨parse l, List.mem_map_of_mem _ hl, m, hm⟩
  rcases collectFiltered_error flt _ hex' with ⟨m, hm⟩
  refine ⟨m, ?_⟩
  unfold read_index
  rw [hm]
  rfl

theorem collectE_zip_ok (nfc : String → String) :
    ∀ (hidx midx : List Entry),
      List.Forall₂ (fun a b : Entry => a.path = b.path) hidx midx →
      collectE ((hidx.zip midx).map (fun p =>
        if p.1.path = p.2.path then Except.ok (joinEntry nfc p.1 p.2)
        else Except.error "path of index entries do not match")) =
        Except.ok (List.zipWith (joinEntry nfc) hidx midx) := by
  intro hidx midx hf
  induction hf with
  | nil => rfl
  | cons hab _ ih =>
    simp only [List.zip_cons_cons, List.map_cons, List.zipWith_cons_cons]
    rw [if_pos hab]
    simp only [collectE]
    rw [ih]
    rfl

theorem collectE_zip_err (nfc : String → String) :
    ∀ hidx midx : List Entry, hidx.length = midx.length →
      ¬ List.Forall₂ (fun a b : Entry => a.path = b.path) hidx midx →
      ∃ msg, collectE ((hidx.zip midx).map (fun p =>
        if p.1.path = p.2.path then Except.ok (joinEntry nfc p.1 p.2)
        else Except.error "path of index entries do not match")) =
        Except.error msg := by
  intro hidx
  induction hidx with
  | nil =>
    intro midx hlen hnf
    cases midx with
    | nil => exact absurd List.Forall₂.nil hnf
    | cons b m => simp at hlen
  | cons a h ih =>
    intro midx hlen hnf
    cases midx with
    | nil => simp at hlen
    | cons b m =>
      by_cases hab : a.path = b.path
      · have hnf' : ¬ List.Forall₂ (fun a b : Entry => a.path = b.path) h m :=
          fun hf => hnf (List.Forall₂.cons hab hf)
        rcases ih m (by simpa using hlen) hnf' with ⟨msg, hmsg⟩
        refine ⟨msg, ?_⟩
        simp only [List.zip_cons_cons, List.map_cons]
        rw [if_pos hab]
        simp only [collectE]
        rw [hmsg]
        rfl
      · refine ⟨"path of index entries do not match", ?_⟩
        simp only [List.zip_cons_cons, List.map_cons]
        rw [if_neg hab]
        rfl

theorem join_indices_ok (nfc : String → String) (hidx midx : List Entry)
    (hlen : hidx.length = midx.length)
    (hf : List.Forall₂ (fun a b : Entry => a.path = b.path) hidx midx) :
    join_indices nfc hidx midx = Except.ok (List.zipWith (joinEntry nfc) hidx midx) := by
  unfold join_indices
  rw [if_pos hlen]
  exact collectE_zip_ok nfc hidx midx hf

theorem load_of_reads (nfc : String → String) (flt : String → Bool)
    (hls mls : List (List Char)) (hidx midx : List Entry)
    (hh : read_hash_index nfc flt hls = Except.ok hidx)
    (hm : read_meta_index nfc flt mls = Except.ok midx) :
    load nfc flt hls mls = join_indices nfc hidx midx := by
  unfold load
  rw [hh, hm]

theorem pairwise_lt_of_le_nodup (l : List Entry)
    (hs : l.Pairwise entryLe) (hnd : (l.map Entry.norm_path).Nodup) :
    l.Pairwise (fun a b => a.norm_path < b.norm_path) := by
  have hne : l.Pairwise (fun a b : Entry => a.norm_path ≠ b.norm_path) :=
    List.pairwise_map.mp hnd
  exact (hs.and hne).imp (fun h => lt_of_le_of_ne h.1 h.2)

theorem sorted_strict_unique :
    ∀ l1 l2 : List Entry, l1.Perm l2 →
      l1.Pairwise (fun a b => a.norm_path < b.norm_path) →
      l2.Pairwise (fun a b => a.norm_path < b.norm_path) → l1 = l2 := by
  intro l1
  induction l1 with
  | nil =>
    intro l2 hp _ _
    exact (hp.symm.eq_nil).symm
  | cons a t1 ih =>
    intro l2 hp hs1 hs2
    cases l2 with
    | nil => exact absurd hp.eq_nil (by simp)
    | cons b t2 =>
      have hb : b ∈ a :: t1 := hp.mem_iff.mpr (List.mem_cons_self _ _)
      rcases List.mem_cons.mp hb with heqb | hbt1
      · subst heqb
        rw [ih t2 hp.cons_inv hs1.of_cons hs2.of_cons]
      · have ha : a ∈ b :: t2 := hp.mem_iff.mp (List.mem_cons_self _ _)
        have h1 : a.norm_path < b.norm_path := (List.pairwise_cons.mp hs1).1 b hbt1
        rcases List.mem_cons.mp ha with heqa | hat2
        · rw [heqa] at h1
          exact absurd h1 (lt_irrefl _)
        · have h2 : b.norm_path < a.norm_path := (List.pairwise_cons.mp hs2).1 a hat2
          exact absurd (lt_trans h1 h2) (lt_irrefl _)

theorem sortEntries_sorted (l : List Entry) : (sortEntries l).Pairwise entryLe :=
  List.sorted_insertionSort entryLe l

theorem sortEntries_perm (l : List Entry) : (sortEntries l).Perm l :=
  List.perm_insertionSort entryLe l

theorem sortEntries_strict (l : List Entry) (hnd : (l.map Entry.norm_path).Nodup) :
    (sortEntries l).Pairwise (fun a b => a.norm_path < b.norm_path) := by
  refine pairwise_lt_of_le_nodup _ (sortEntries_sorted l) ?_
  exact ((sortEntries_perm l).map _).nodup_iff.mpr hnd

theorem sortEntries_map_keyfix (f : Entry → Entry) (l : List Entry)
    (hkey : ∀ e ∈ l, (f e).norm_path = e.norm_path)
    (hnd : (l.map Entry.norm_path).Nodup) :
    sortEntries (l.map f) = (sortEntries l).map f := by
  have hmapkeys : (l.map f).map Entry.norm_path = l.map Entry.norm_path := by
    rw [List.map_map]
    exact List.map_congr_left (fun e he => hkey e he)
  have hndf : ((l.map f).map Entry.norm_path).Nodup := by
    rw [hmapkeys]
    exact hnd
  have hs1 := sortEntries_strict (l.map f) hndf
  have hsl := sortEntries_strict l hnd
  have hs2 : ((sortEntries l).map f).Pairwise (fun a b => a.norm_path < b.norm_path) := by
    rw [List.pairwise_map]
    refine hsl.imp_of_mem ?_
    intro a b ha hb hab
    rw [hkey a ((sortEntries_perm l).subset ha), hkey b ((sortEntries_perm l).subset hb)]
    exact hab
  have hp : (sortEntries (l.map f)).Perm ((sortEntries l).map f) :=
    (sortEntries_perm (l.map f)).trans ((sortEntries_perm l).symm.map f)
  exact sorted_strict_unique _ _ hp hs1 hs2

theorem zipWith_map_same (f : Entry → Entry → Entry) (g h : Entry → Entry) :
    ∀ x : List Entry, List.zipWith f (x.map g) (x.map h) = x.map (fun e => f (g e) (h e)) := by
  intro x
  induction x with
  | nil => rfl
  | cons a t ih => simp [ih]

theorem forall₂_map_same (g h : Entry → Entry) (P : Entry → Entry → Prop) :
    ∀ x : List Entry, (∀ e ∈ x, P (g e) (h e)) →
      List.Forall₂ P (x.map g) (x.map h) := by
  intro x
  induction x with
  | nil => intro _; exact List.Forall₂.nil
  | cons a t ih =>
    intro hall
    exact List.Forall₂.cons (hall a (List.mem_cons_self _ _))
      (ih fun e he => hall e (List.mem_cons_of_mem _ he))

/-- The entry produced for a saved entry by the hash record reader. -/
def hEnt (nfc : String → String) (e : Entry) : Entry :=
  ⟨e.norm_path, nfc e.norm_path, e.hash, 0, 0⟩

/-- The entry produced for a saved entry by the metadata record reader. -/
def mEnt (nfc : String → String) (e : Entry) : Entry :=
  ⟨e.norm_path, nfc e.norm_path, "", e.len, e.modified⟩

/-- Well-formedness of an entry for the round trip: the path is already in
its normal form and normalization fixes it, the filter admits it, the hash
has no space characters, and the numeric fields fit their machine types. -/
@[reducible] def entryWF (nfc : String → String) (flt : String → Bool) (e : Entry) : Prop :=
  e.path = e.norm_path ∧ nfc e.norm_path = e.norm_path ∧ flt e.norm_path = true ∧
  (∀ c ∈ e.hash.data, c ≠ ' ') ∧ e.len < 2 ^ 64 ∧ e.modified < 2 ^ 128

theorem read_hash_index_save (nfc : String → String) (flt : String → Bool)
    (l : List Entry) (hwf : ∀ e ∈ l, entryWF nfc flt e) :
    read_hash_index nfc flt (save l).1 = Except.ok (sortEntries (l.map (hEnt nfc))) := by
  have hget1 : (save l).1.map (parseHashLine nfc) = (l.map (hEnt nfc)).map Except.ok := by
    show (l.map hashLine).map (parseHashLine nfc) = _
    rw [List.map_map, List.map_map]
    refine List.map_congr_left ?_
    intro e he
    exact parseHashLine_hashLine nfc e (hwf e he).2.2.2.1
  have hflt1 : ∀ x ∈ l.map (hEnt nfc), flt x.path = true := by
    intro x hx
    rcases List.mem_map.mp hx with ⟨e, he, rfl⟩
    exact (hwf e he).2.2.1
  unfold read_hash_index read_index
  rw [hget1, collectFiltered_map_ok flt _ hflt1]
  rfl

theorem read_meta_index_save (nfc : String → String) (flt : String → Bool)
    (l : List Entry) (hwf : ∀ e ∈ l, entryWF nfc flt e) :
    read_meta_index nfc flt (save l).2 = Except.ok (sortEntries (l.map (mEnt nfc))) := by
  have hget1 : (save l).2.map (parseMetaLine nfc) = (l.map (mEnt nfc)).map Except.ok := by
    show (l.map metaLine).map (parseMetaLine nfc) = _
    rw [List.map_map, List.map_map]
    refine List.map_congr_left ?_
    intro e he
    exact parseMetaLine_metaLine nfc e (hwf e he).2.2.2.2.1 (hwf e he).2.2.2.2.2
  have hflt1 : ∀ x ∈ l.map (mEnt nfc), flt x.path = true := by
    intro x hx
    rcases List.mem_map.mp hx with ⟨e, he, rfl⟩
    exact (hwf e he).2.2.1
  unfold read_meta_index read_index
  rw [hget1, collectFiltered_map_ok flt _ hflt1]
  rfl

theorem load_save (nfc : String → String) (flt : String → Bool) (l : List Entry)
    (hwf : ∀ e ∈ l, entryWF nfc flt e)
    (hnd : (l.map Entry.norm_path).Nodup) :
    load nfc flt (save l).1 (save l).2 = Except.ok (sortEntries l) := by
  have hkeyh : ∀ e ∈ l, (hEnt nfc e).norm_path = e.norm_path := fun e he => (hwf e he).2.1
  have hkeym : ∀ e ∈ l, (mEnt nfc e).norm_path = e.norm_path := fun e he => (hwf e he).2.1
  have hsh : sortEntries (l.map (hEnt nfc)) = (sortEntries l).map (hEnt nfc) :=
    sortEntries_map_keyfix _ l hkeyh hnd
  have hsm : sortEntries (l.map (mEnt nfc)) = (sortEntries l).map (mEnt nfc) :=
    sortEntries_map_keyfix _ l hkeym hnd
  have hrh := read_hash_index_save nfc flt l hwf
  have hrm := read_meta_index_save nfc flt l hwf
  rw [hsh] at hrh
  rw [hsm] at hrm
  rw [load_of_reads nfc flt _ _ _ _ hrh hrm]
  have hlen : ((sortEntries l).map (hEnt nfc)).length = ((sortEntries l).map (mEnt nfc)).length := by
    simp
  have hf : List.Forall₂ (fun a b : Entry => a.path = b.path)
      ((sortEntries l).map (hEnt nfc)) ((sortEntries l).map (mEnt nfc)) :=
    forall₂_map_same _ _ _ _ (fun e _ => rfl)
  rw [join_indices_ok nfc _ _ hlen hf, zipWith_map_same]
  have hmapid : (sortEntries l).map (fun e => joinEntry nfc (hEnt nfc e) (mEnt nfc e)) =
      sortEntries l := by
    have : ∀ e ∈ sortEntries l, joinEntry nfc (hEnt nfc e) (mEnt nfc e) = e := by
      intro e he
      have hel : e ∈ l := (sortEntries_perm l).subset he
      have h1 := (hwf e hel).1
      have h2 := (hwf e hel).2.1
      cases e with
      | mk p np hs ln md =>
        simp only at h1 h2
        simp [joinEntry, hEnt, mEnt, h1, h2]
    rw [List.map_congr_left this]
    exact List.map_id' _
  rw [hmapid]

/-- C7 amended: for entries that are well formed for persistence (path
already in normal form and fixed by normalization, admitted by the filter,
hash free of spaces, numeric fields within u64 and u128) with pairwise
distinct keys, saving and loading reproduces exactly the same entries
(same path, hash, len, modified) up to the sorted order, independent of the
order of the input list. Entries whose path the reader's filter rejects, or
whose path is not normalization-fixed, are not reproduced (see the
counterexample). -/
theorem claim_C7_save_load_roundtrip (nfc : String → String) (flt : String → Bool)
    (l : List Entry)
    (hwf : ∀ e ∈ l, entryWF nfc flt e)
    (hnd : (l.map Entry.norm_path).Nodup) :
    load nfc flt (save l).1 (save l).2 = Except.ok (sortEntries l) ∧
    (sortEntries l).Perm l ∧
    (∀ l2 : List Entry, l2.Perm l →
      load nfc flt (save l2).1 (save l2).2 = Except.ok (sortEntries l)) := by
  refine ⟨load_save nfc flt l hwf hnd, sortEntries_perm l, ?_⟩
  intro l2 hp
  have hwf2 : ∀ e ∈ l2, entryWF nfc flt e := fun e he => hwf e (hp.subset he)
  have hnd2 : (l2.map Entry.norm_path).Nodup := (hp.map _).nodup_iff.mpr hnd
  rw [load_save nfc flt l2 hwf2 hnd2]
  congr 1
  exact sorted_strict_unique _ _
    ((sortEntries_perm l2).trans (hp.trans (sortEntries_perm l).symm))
    (sortEntries_strict l2 hnd2) (sortEntries_strict l hnd)

def entIdxFile : Entry := ⟨".checksums.sha256", ".checksums.sha256", "aa", 1, 2⟩

/-- C7 counterexample: an entry whose path is the hash record's own file
name is written by save but dropped by load's default filter, so the round
trip loses it: loading the saved single-entry snapshot yields the empty
list. -/
theorem claim_C7_counterexample :
    load id defaultFilter (save [entIdxFile]).1 (save [entIdxFile]).2 =
      Except.ok [] ∧
    entIdxFile ∈ [entIdxFile] ∧ entIdxFile ∉ ([] : List Entry) := by
  decide

def entW7a : Entry := ⟨"b.txt", "b.txt", "cc", 2, 3⟩

def entW7b : Entry := ⟨"a.txt", "a.txt", "dd", 4, 5⟩

/-- Witness for C7 on two well-formed entries given in unsorted order. -/
theorem claim_C7_witness :
    (∀ e ∈ [entW7a, entW7b], entryWF id defaultFilter e) ∧
    ([entW7a, entW7b].map Entry.norm_path).Nodup ∧
    (load id defaultFilter (save [entW7a, entW7b]).1 (save [entW7a, entW7b]).2 =
        Except.ok (sortEntries [entW7a, entW7b]) ∧
      (sortEntries [entW7a, entW7b]).Perm [entW7a, entW7b] ∧
      (∀ l2 : List Entry, l2.Perm [entW7a, entW7b] →
        load id defaultFilter (save l2).1 (save l2).2 =
          Except.ok (sortEntries [entW7a, entW7b]))) :=
  ⟨by decide, by decide,
   claim_C7_save_load_roundtrip id defaultFilter [entW7a, entW7b]
     (by decide) (by decide)⟩

/-- C8: loading fails whenever a hash or metadata line is malformed, or the
two records disagree in entry count after per-record filtering and sorting,
or the paths at some ordinal position of the two sorted records differ; on
success the result combines, position by position, the hash record entry's
path and hash with the metadata record entry's length and modified. -/
theorem claim_C8_load_errors (nfc : String → String) (flt : String → Bool)
    (hls mls : List (List Char)) :
    ((∃ line ∈ hls, ∃ msg, parseHashLine nfc line = Except.error msg) ∨
     (∃ line ∈ mls, ∃ msg, parseMetaLine nfc line = Except.error msg) →
      ∃ msg, load nfc flt hls mls = Except.error msg) ∧
    (∀ hidx midx : List Entry,
      read_hash_index nfc flt hls = Except.ok hidx →
      read_meta_index nfc flt mls = Except.ok midx →
      (hidx.length ≠ midx.length →
        load nfc flt hls mls = Except.error "indices must have same number of entries") ∧
      (hidx.length = midx.length →
        (¬ List.Forall₂ (fun a b : Entry => a.path = b.path) hidx midx →
          ∃ msg, load nfc flt hls mls = Except.error msg) ∧
        (List.Forall₂ (fun a b : Entry => a.path = b.path) hidx midx →
          load nfc flt hls mls =
            Except.ok (List.zipWith (joinEntry nfc) hidx midx)))) := by
  constructor
  · rintro (⟨line, hline, msg, hmsg⟩ | ⟨line, hline, msg, hmsg⟩)
    · rcases read_index_error flt (parseHashLine nfc) hls ⟨line, hline, msg, hmsg⟩
        with ⟨m, hm⟩
      refine ⟨m, ?_⟩
      unfold load
      rw [show read_hash_index nfc flt hls = Except.error m from hm]
    · cases hh : read_hash_index nfc flt hls with
      | error e =>
        refine ⟨e, ?_⟩
        unfold load
        rw [hh]
      | ok hidx =>
        rcases read_index_error flt (parseMetaLine nfc) mls ⟨line, hline, msg, hmsg⟩
          with ⟨m, hm⟩
        refine ⟨m, ?_⟩
        unfold load
        rw [hh, show read_meta_index nfc flt mls = Except.error m from hm]
  · intro hidx midx hh hm
    constructor
    · intro hne
      rw [load_of_reads nfc flt _ _ _ _ hh hm]
      unfold join_indices
      rw [if_neg hne]
    · intro hlen
      constructor
      · intro hnf
        rcases collectE_zip_err nfc hidx midx hlen hnf with ⟨msg, hmsg⟩
        refine ⟨msg, ?_⟩
        rw [load_of_reads nfc flt _ _ _ _ hh hm]
        unfold join_indices
        rw [if_pos hlen, hmsg]
      · intro hf
        rw [load_of_reads nfc flt _ _ _ _ hh hm]
        exact join_indices_ok nfc hidx midx hlen hf

def entW8h : Entry := ⟨"a.txt", "a.txt", "dd", 0, 0⟩

def entW8m : Entry := ⟨"a.txt", "a.txt", "", 4, 5⟩

/-- Witness for C8 at a concrete snapshot whose two records read back
successfully and join position by position. -/
theorem claim_C8_witness :
    (read_hash_index id defaultFilter (save [entW7b]).1 = Except.ok [entW8h] ∧
     read_meta_index id defaultFilter (save [entW7b]).2 = Except.ok [entW8m]) ∧
    (([entW8h].length ≠ [entW8m].length →
        load id defaultFilter (save [entW7b]).1 (save [entW7b]).2 =
          Except.error "indices must have same number of entries") ∧
      ([entW8h].length = [entW8m].length →
        (¬ List.Forall₂ (fun a b : Entry => a.path = b.path) [entW8h] [entW8m] →
          ∃ msg, load id defaultFilter (save [entW7b]).1 (save [entW7b]).2 =
            Except.error msg) ∧
        (List.Forall₂ (fun a b : Entry => a.path = b.path) [entW8h] [entW8m] →
          load id defaultFilter (save [entW7b]).1 (save [entW7b]).2 =
            Except.ok (List.zipWith (joinEntry id) [entW8h] [entW8m])))) :=
  ⟨⟨by decide, by decide⟩,
   (claim_C8_load_errors id defaultFilter (save [entW7b]).1 (save [entW7b]).2).2
     [entW8h] [entW8m] (by decide) (by decide)⟩

/-- Per-file data the directory walk and filesystem provide to the scanner:
the relative path and the metadata and content hash that update_meta and
update_hash would produce for the file. -/
structure ScanFile where
  path : String
  fsLen : Nat
  fsModified : Nat
  fsHash : String
deriving DecidableEq, Repr

/-- Entry::from_path (src/entry.rs): a fresh entry carrying the
NFC-normalized key, empty hash and zeroed metadata. -/
def Entry.from_path (nfc : String → String) (p : String) : Entry :=
  ⟨p, nfc p, "", 0, 0⟩

/-- One loop iteration of analyze_dir (src/analyze.rs lines 21-39):
from_path, then update_meta when compute_meta is set, then update_hash with
force set when compute_hash is set. -/
def scanEntry (nfc : String → String) (computeMeta computeHash : Bool)
    (f : ScanFile) : Entry :=
  let e0 := Entry.from_path nfc f.path
  let e1 := if computeMeta then
    { e0 with len := f.fsLen, modified := f.fsModified } else e0
  if computeHash then { e1 with hash := f.fsHash } else e1

/-- analyze_dir (src/analyze.rs): one entry per regular file the walk
yields, then sort_unstable by the Entry order. -/
def analyze_dir (nfc : String → String) (files : List ScanFile)
    (computeMeta computeHash : Bool) : List Entry :=
  sortEntries (files.map (scanEntry nfc computeMeta computeHash))

theorem scanEntry_norm (nfc : String → String) (cm ch : Bool) (f : ScanFile) :
    (scanEntry nfc cm ch f).norm_path = nfc f.path := by
  unfold scanEntry Entry.from_path
  cases cm <;> cases ch <;> rfl

/-- C9: the entry list analyze_dir returns is sorted ascending by the Entry
order (the normalized path key); when the normalized keys of the walked
files are distinct, the output is even strictly ascending, which is the
sortedness the merge engine requires of its inputs. -/
theorem claim_C9_analyze_dir_sorted (nfc : String → String) (files : List ScanFile)
    (computeMeta computeHash : Bool) :
    (analyze_dir nfc files computeMeta computeHash).Pairwise entryLe ∧
    ((files.map (fun f => nfc f.path)).Nodup →
      (analyze_dir nfc files computeMeta computeHash).Pairwise
        (fun a b => a.norm_path < b.norm_path)) := by
  constructor
  · exact sortEntries_sorted _
  · intro hnd
    refine sortEntries_strict _ ?_
    rw [List.map_map]
    have hcongr : (files.map (Entry.norm_path ∘ scanEntry nfc computeMeta computeHash)) =
        files.map (fun f => nfc f.path) :=
      List.map_congr_left (fun f _ => scanEntry_norm nfc computeMeta computeHash f)
    rw [hcongr]
    exact hnd

def scanF1 : ScanFile := ⟨"b.txt", 1, 2, "ha"⟩

def scanF2 : ScanFile := ⟨"a.txt", 3, 4, "hb"⟩

/-- Witness for C9 at a concrete walk yielding two files out of order. -/
theorem claim_C9_witness :
    (([scanF1, scanF2].map (fun f => id f.path)).Nodup) ∧
    (analyze_dir id [scanF1, scanF2] true true).Pairwise entryLe ∧
    (analyze_dir id [scanF1, scanF2] true true).Pairwise
      (fun a b => a.norm_path < b.norm_path) :=
  ⟨by decide,
   (claim_C9_analyze_dir_sorted id [scanF1, scanF2] true true).1,
   (claim_C9_analyze_dir_sorted id [scanF1, scanF2] true true).2 (by decide)⟩

/-- audit (src/lib.rs lines 82-121), after a successful snapshot load and a
full scan: diff baseline against scan with hash-and-mtime equality,
aggregate, then return exit code 3 writing nothing when bitrot was found,
exit code 2 when any other change is present, writing the scanned state
exactly when the update flag is set, and exit code 0 writing nothing
otherwise. The pair is the exit code and the snapshot written, if any. -/
def audit (entries actual : List Entry) (upd : Bool) : Nat × Option (List Entry) :=
  let stats := statsFromEvents
    (diff_iter Entry.norm_path Entry.compare_hash_and_mtime entries actual)
  if !stats.updated_bitrot.isEmpty then (3, none)
  else if stats.modified then (2, if upd then some actual else none)
  else (0, none)

/-- C4: with a loadable snapshot, audit exits 3 and writes nothing when the
bitrot bucket is non-empty, even with the update flag; otherwise exits 2
when any other change is present, writing the scanned state exactly when
the update flag is set; otherwise exits 0 and writes nothing. -/
theorem claim_C4_audit_exit_codes (entries actual : List Entry) (upd : Bool) :
    ((statsFromEvents (diff_iter Entry.norm_path Entry.compare_hash_and_mtime
        entries actual)).updated_bitrot ≠ [] →
      audit entries actual upd = (3, none)) ∧
    ((statsFromEvents (diff_iter Entry.norm_path Entry.compare_hash_and_mtime
        entries actual)).updated_bitrot = [] →
      (statsFromEvents (diff_iter Entry.norm_path Entry.compare_hash_and_mtime
        entries actual)).modified = true →
      audit entries actual upd = (2, if upd then some actual else none)) ∧
    ((statsFromEvents (diff_iter Entry.norm_path Entry.compare_hash_and_mtime
        entries actual)).updated_bitrot = [] →
      (statsFromEvents (diff_iter Entry.norm_path Entry.compare_hash_and_mtime
        entries actual)).modified = false →
      audit entries actual upd = (0, none)) := by
  refine ⟨?_, ?_, ?_⟩
  · intro h
    unfold audit
    rw [if_pos]
    simp only [Bool.not_eq_true', ← Bool.not_eq_true, List.isEmpty_iff]
    exact h
  · intro h hmod
    unfold audit
    rw [if_neg (by simp [List.isEmpty_iff, h]), if_pos hmod]
  · intro h hmod
    unfold audit
    rw [if_neg (by simp [List.isEmpty_iff, h]), if_neg (by simp [hmod])]

def entBitOld : Entry := ⟨"f.txt", "f.txt", "h1", 1, 7⟩

def entBitNew : Entry := ⟨"f.txt", "f.txt", "h2", 1, 7⟩

/-- Witness for C4: a one-file audit where the scan finds the same
modification time but a different hash; the audit exits 3 and does not
write even though the update flag is set. -/
theorem claim_C4_witness :
    ((statsFromEvents (diff_iter Entry.norm_path Entry.compare_hash_and_mtime
        [entBitOld] [entBitNew])).updated_bitrot ≠ []) ∧
    audit [entBitOld] [entBitNew] true = (3, none) := by
  have hd : diff_iter Entry.norm_path Entry.compare_hash_and_mtime
      [entBitOld] [entBitNew] = [Event.UPDATED entBitOld entBitNew] := by
    simp +decide [diff_iter, entBitOld, entBitNew, Entry.compare_hash_and_mtime]
  have hb : (statsFromEvents (diff_iter Entry.norm_path Entry.compare_hash_and_mtime
      [entBitOld] [entBitNew])).updated_bitrot ≠ [] := by
    rw [hd]
    decide
  exact ⟨hb, (claim_C4_audit_exit_codes [entBitOld] [entBitNew] true).1 hb⟩
